import Mathlib

/-!
Verification development for the tar archive engine of drone-meltwater-cache
(`archive/tar/tar.go`).  The Go code is shallowly embedded: paths are lists of
characters, the filesystem is an association list from paths to nodes, the tar
stream is a list of headers carrying their payloads, and every fallible
operating-system call is driven by an explicit oracle.  The embedding targets
the POSIX build of the package (the build actually exercised by the
`syscall.Stat_t` code), so `runtime.GOOS != "windows"` is `true` and the path
separator is `/`.
-/

namespace DMTar

/-- Paths and archive names, as Go strings over the POSIX separator. -/
abbrev Str := List Char

/-- Convenience injection from Lean string literals. -/
def str (s : String) : Str := s.data

/-! ### Go `path/filepath` lexical functions (POSIX build)

These embed the Go standard library functions used by `tar.go`:
`filepath.Clean`, `filepath.Base`, `filepath.Dir`, `filepath.IsAbs`,
`filepath.Join`, `filepath.Rel`, `strings.HasPrefix`/`TrimPrefix`.
On POSIX, `filepath.ToSlash` and `filepath.FromSlash` are the identity and are
therefore omitted. -/

/-- Split a path on `/`, keeping empty pieces (as Go's byte scanning does). -/
def splitSl : Str → List Str
  | [] => [[]]
  | a :: rest =>
    let r := splitSl rest
    if a = '/' then [] :: r
    else
      match r with
      | [] => [[a]]
      | h :: t => (a :: h) :: t

/-- Join path elements with `/`. -/
def joinSl : List Str → Str
  | [] => []
  | [s] => s
  | s :: rest => s ++ '/' :: joinSl rest

/-- Go `filepath.IsAbs` (POSIX). -/
def goIsAbs (s : Str) : Bool :=
  match s with
  | '/' :: _ => true
  | _ => false

/-- One element step of `filepath.Clean`'s lexical algorithm: skip empty and
`.` elements, resolve `..` against the element stack (the stack is kept in
reverse order, head = deepest element). -/
def cstep (rooted : Bool) (stack : List Str) (seg : Str) : List Str :=
  if seg = [] ∨ seg = ['.'] then stack
  else if seg = ['.', '.'] then
    match stack with
    | [] => if rooted then [] else [seg]
    | t :: rest => if t = ['.', '.'] then seg :: t :: rest else rest
  else seg :: stack

/-- Go `filepath.Clean` (POSIX). -/
def clean (s : Str) : Str :=
  if s = [] then ['.']
  else
    let rooted := goIsAbs s
    let stack := (splitSl s).foldl (cstep rooted) []
    let body := joinSl stack.reverse
    if rooted then '/' :: body
    else if body = [] then ['.'] else body

/-- Go `filepath.Base` (POSIX): strip trailing separators, take the last
element; `.` for empty input, `/` for all-separator input. -/
def goBase (s : Str) : Str :=
  if s = [] then ['.']
  else
    let s1 := (s.reverse.dropWhile (fun c => c = '/')).reverse
    if s1 = [] then ['/']
    else (s1.reverse.takeWhile (fun c => ¬ c = '/')).reverse

/-- Go `filepath.Dir` (POSIX): everything up to and including the final
separator, then `Clean` (`Clean ""` is `.`). -/
def goDir (s : Str) : Str :=
  clean ((s.reverse.dropWhile (fun c => ¬ c = '/')).reverse)

/-- Go `filepath.Join` restricted to two elements, as used by the archive
code: the first non-empty element sequence joined with `/` and cleaned. -/
def goJoin2 (a b : Str) : Str :=
  if a = [] then (if b = [] then [] else clean b)
  else clean (a ++ '/' :: b)

/-- Length of the longest common prefix of two segment lists (the element
comparison loop of Go `filepath.Rel`). -/
def lcpLen : List Str → List Str → Nat
  | a :: as_, b :: bs => if a = b then lcpLen as_ bs + 1 else 0
  | _, _ => 0

/-- Go `filepath.Rel` (POSIX), at the segment level over the cleaned inputs.
`none` is Go's error return ("can't make targ relative to base"): a rooted /
unrooted mismatch, or a leading `..` left in the base after removing the
common prefix.  When base elements remain, the result is one `..` per
remaining base element followed by the remaining target elements. -/
def goRel (basepath targpath : Str) : Option Str :=
  let b0 := clean basepath
  let t := clean targpath
  if b0 = t then some ['.']
  else
    let b := if b0 = ['.'] then [] else b0
    if (goIsAbs b) ≠ (goIsAbs t) then none
    else
      let bs := splitSl b
      let ts := splitSl t
      let k := lcpLen bs ts
      let brem := bs.drop k
      let trem := ts.drop k
      if brem.head? = some ['.', '.'] then none
      else
        let bstr := joinSl brem
        let tstr := joinSl trem
        if bstr = [] then some tstr
        else some (joinSl (List.replicate brem.length ['.', '.']) ++
          (if tstr = [] then [] else '/' :: tstr))

/-- Go `strings.TrimPrefix`. -/
def trimPfx (p s : Str) : Str := if p.isPrefixOf s then s.drop p.length else s

/-- The `for strings.HasPrefix(rel, "../") { rel = strings.TrimPrefix(rel, "../") }`
loop of `relative` in `tar.go`. -/
def stripDots : Str → Str
  | '.' :: '.' :: '/' :: rest => stripDots rest
  | s => s

/-- `relative(parent, path)` from `tar.go` (lines 154-170): base name of the
path, `filepath.Rel` of the parent against the path's directory, strip
leading `../` fragments, join with the base name and trim a leading slash.
`filepath.ToSlash` is the identity on the POSIX build. -/
def relative (parent path : Str) : Option Str :=
  let name := goBase path
  match goRel parent (goDir path) with
  | none => none
  | some rel => some (trimPfx ['/'] (goJoin2 (stripDots rel) name))

/-! ### Data model: headers, filesystem, oracles

`GoTime` models `time.Time` by its value; the Go zero `time.Time` is the
value `⟨0, 0⟩` and `IsZero` is equality with it.  `runtime.GOOS` is fixed to
a POSIX system. -/

/-- A `time.Time` value (seconds, nanoseconds). -/
structure GoTime where
  sec : Int
  nsec : Int
deriving DecidableEq

/-- The zero `time.Time`. -/
def timeZero : GoTime := ⟨0, 0⟩

/-- `runtime.GOOS == "windows"` for the build being modelled. -/
def goosWindows : Bool := false

/-- `defaultDirPermission = 0755` from `tar.go`. -/
def defaultDirPerm : Int := 0o755

/-- Tar header type flags used by `tar.go` (`tar.TypeDir`, `tar.TypeReg`,
`tar.TypeRegA`, `tar.TypeChar`, `tar.TypeBlock`, `tar.TypeFifo`,
`tar.TypeSymlink`, `tar.TypeLink`, `tar.TypeXGlobalHeader`, anything else). -/
inductive TypeFlag
  | dir | reg | regA | chr | blk | fifo | symlink | link | xGlobalHeader
  | other (c : Char)
deriving DecidableEq

/-- The `tar.Header.Format` values the repository code distinguishes:
`tar.FormatPAX` when it forces the extended format, and the zero value
`tar.FormatUnknown` (writer's choice) otherwise. -/
inductive Format
  | unknown | pax
deriving DecidableEq

/-- A `tar.Header` together with the entry's payload byte stream (the bytes
`tar.Reader` would deliver for this entry). -/
structure Header where
  name : Str
  typeflag : TypeFlag
  mode : Int
  modTime : GoTime
  accessTime : GoTime
  changeTime : GoTime
  uid : Int
  gid : Int
  linkname : Str
  format : Format
  payload : List Nat
deriving DecidableEq

/-- The content part of a filesystem node. -/
inductive Core
  | file (content : List Nat)
  | dir
  | symlink (target : Str)
deriving DecidableEq

/-- The metadata part of a filesystem node. -/
structure Meta where
  mode : Int
  atime : GoTime
  mtime : GoTime
  uid : Int
  gid : Int
deriving DecidableEq

/-- A filesystem node. -/
structure Node where
  core : Core
  meta : Meta
deriving DecidableEq

/-- The filesystem: an association list from paths to nodes. -/
abbrev FS := List (Str × Node)

/-- Association-list lookup (first binding wins). -/
def alLookup {α : Type} : List (Str × α) → Str → Option α
  | [], _ => none
  | (q, n) :: rest, p => if q = p then some n else alLookup rest p

/-- Association-list insert-or-replace, keeping the original position of an
existing key. -/
def alInsert {α : Type} : List (Str × α) → Str → α → List (Str × α)
  | [], p, n => [(p, n)]
  | (q, m) :: rest, p, n =>
    if q = p then (q, n) :: rest else (q, m) :: alInsert rest p n

/-- Association-list removal of a key's first binding. -/
def alErase {α : Type} : List (Str × α) → Str → List (Str × α)
  | [], _ => []
  | (q, m) :: rest, p => if q = p then rest else (q, m) :: alErase rest p

/-- Success/failure oracle for the operating-system calls whose errors the
code propagates (`os.MkdirAll`, `os.OpenFile`, `io.Copy` into the file,
`os.Symlink`, `os.Link`, `os.Remove`).  `copyFail p = some k` means the copy
into `p` fails after `k` bytes; `none` means it completes. -/
structure FatalOracle where
  mkdirOk : Str → Bool
  openOk : Str → Bool
  copyFail : Str → Option Nat
  symlinkOk : Str → Bool
  linkOk : Str → Bool
  removeOk : Str → Bool

/-- Success/failure oracle for the metadata system calls whose errors the
code discards (`os.Chmod`, `os.Chtimes`, `os.Chown`, `os.Lchown`). -/
structure MetaOracle where
  chmodOk : Str → Bool
  chtimesOk : Str → Bool
  chownOk : Str → Bool
  lchownOk : Str → Bool

/-- Update the metadata of the node at `p`, if present. -/
def updMeta (fs : FS) (p : Str) (f : Meta → Meta) : FS :=
  match alLookup fs p with
  | none => fs
  | some n => alInsert fs p ⟨n.core, f n.meta⟩

/-- `os.Chmod` under the oracle (failure leaves the filesystem unchanged,
matching an error return the code ignores). -/
def chmodIf (mo : MetaOracle) (fs : FS) (p : Str) (m : Int) : FS :=
  if mo.chmodOk p then updMeta fs p (fun x => ⟨m, x.atime, x.mtime, x.uid, x.gid⟩) else fs

/-- `os.Chtimes` under the oracle. -/
def chtimesIf (mo : MetaOracle) (fs : FS) (p : Str) (a m : GoTime) : FS :=
  if mo.chtimesOk p then updMeta fs p (fun x => ⟨x.mode, a, m, x.uid, x.gid⟩) else fs

/-- `os.Chown` under the oracle. -/
def chownIf (mo : MetaOracle) (fs : FS) (p : Str) (u g : Int) : FS :=
  if mo.chownOk p then updMeta fs p (fun x => ⟨x.mode, x.atime, x.mtime, u, g⟩) else fs

/-- `os.Lchown` under the oracle (in the path-keyed model it acts on the
binding at `p`, like `os.Chown`). -/
def lchownIf (mo : MetaOracle) (fs : FS) (p : Str) (u g : Int) : FS :=
  if mo.lchownOk p then updMeta fs p (fun x => ⟨x.mode, x.atime, x.mtime, u, g⟩) else fs

/-- Metadata an entry gets when the model creates it (process defaults;
umask and clock are not modelled). -/
def freshMeta (mode : Int) : Meta := ⟨mode, timeZero, timeZero, 0, 0⟩

/-- Metadata of a freshly created symbolic link (`lrwxrwxrwx`). -/
def freshLinkMeta : Meta := ⟨0o777, timeZero, timeZero, 0, 0⟩

/-- The list of directories `os.MkdirAll p` may have to create: every prefix
of `p` ending just before a separator, then `p` itself. -/
def ancPrefixes (p : Str) : List Str :=
  ((List.range p.length).filterMap (fun i =>
    if 0 < i ∧ p.get? i = some '/' then some (p.take i) else none)) ++ [p]

/-- `os.MkdirAll` (successful case): create each missing directory on the way
to `p` with permission `perm`; existing entries are untouched. -/
def mkdirAllFS (fs : FS) (p : Str) (perm : Int) : FS :=
  (ancPrefixes p).foldl (fun acc q =>
    match alLookup acc q with
    | some _ => acc
    | none => alInsert acc q ⟨.dir, freshMeta perm⟩) fs

/-! ### Error values

One constructor per `fmt.Errorf`/sentinel site of `tar.go`, with the wrapping
structure of the Go error chains. -/

inductive Err
  | srcNotReachable (src : Str)
  | walkFailed (e : Err)
  | noFileInfo
  | passedIn (k : Nat)
  | headerFailed (path : Str)
  | symlinkHeaderFailed (path : Str)
  | relFailed (path root : Str)
  | writeHeaderFailed (path : Str)
  | openFailed (path : Str)
  | copyFailed (path : Str)
  | writeFileFailed (e : Err)
  | archiveNotReadable
  | relNameFailed
  | ensureDirFailed (target : Str)
  | createDirFailed (target : Str)
  | extractRegularFailed (e : Err)
  | extractSymlinkFailed (e : Err)
  | extractLinkFailed (e : Err)
  | unlinkFailed (target : Str)
  | createSymlinkFailed (target : Str)
  | createLinkFailed (name : Str)
  | unknownType (target : Str) (flag : TypeFlag)
deriving DecidableEq

/-! ### Extraction (`Extract` and its helpers, `tar.go` lines 202-416) -/

/-- `unlink` (lines 409-416): `os.Lstat`, and only if it succeeds,
`os.Remove`; a missing entry is a successful no-op. -/
def unlinkFS (o : FatalOracle) (fs : FS) (p : Str) : FS × Option Err :=
  match alLookup fs p with
  | some _ => if o.removeOk p then (alErase fs p, none) else (fs, some (.unlinkFailed p))
  | none => (fs, none)

/-- `extractDir` (lines 330-336): `os.MkdirAll(target, os.FileMode(h.Mode))`. -/
def extractDirFS (o : FatalOracle) (fs : FS) (h : Header) (target : Str) : FS × Option Err :=
  if o.mkdirOk target then (mkdirAllFS fs target h.mode, none)
  else (fs, some (.createDirFailed target))

/-- The metadata application block shared by `extractRegular` (lines 351-362)
and `extractLink` (lines 393-404): chmod, chtimes with the access time falling
back to the modification time when zero, and chown unless on Windows.  All
three error returns are discarded by the code. -/
def applyFileMeta (mo : MetaOracle) (fs : FS) (target : Str) (h : Header) : FS :=
  let fs1 := chmodIf mo fs target h.mode
  let a := if h.accessTime = timeZero then h.modTime else h.accessTime
  let fs2 := chtimesIf mo fs1 target a h.modTime
  if goosWindows then fs2 else chownIf mo fs2 target h.uid h.gid

/-- What `os.OpenFile(target, os.O_CREATE|os.O_RDWR, mode)` finds: `none` if
the node cannot be opened for writing (a directory or symlink occupies the
path — symlink indirection is not modelled), otherwise the current content
and metadata, with a fresh empty file created when the path is free.  Note
the flags carry no `O_TRUNC`. -/
def openRW (fs : FS) (target : Str) (mode : Int) : Option (List Nat × Meta) :=
  match alLookup fs target with
  | none => some ([], freshMeta mode)
  | some n =>
    match n.core with
    | .file c => some (c, n.meta)
    | _ => none

/-- `extractRegular` (lines 338-365): open or create without truncation, copy
the payload over the head of the file, then apply metadata best-effort when
preservation is on.  Returns the new filesystem, the byte count the function
returns, and its error. -/
def extractRegularFS (pres : Bool) (o : FatalOracle) (mo : MetaOracle)
    (fs : FS) (h : Header) (target : Str) : FS × Int × Option Err :=
  if o.openOk target = false then (fs, 0, some (.openFailed target))
  else
    match openRW fs target h.mode with
    | none => (fs, 0, some (.openFailed target))
    | some (c, m) =>
      match o.copyFail target with
      | some k =>
        let n := min k h.payload.length
        let nc := h.payload.take n ++ c.drop n
        (alInsert fs target ⟨.file nc, m⟩, (n : Int), some (.copyFailed target))
      | none =>
        let nc := h.payload ++ c.drop h.payload.length
        let fs1 := alInsert fs target ⟨.file nc, m⟩
        let fs2 := if pres then applyFileMeta mo fs1 target h else fs1
        (fs2, (h.payload.length : Int), none)

/-- `extractSymlink` (lines 367-382): unlink, `os.Symlink(h.Linkname, target)`,
then ownership only (`os.Lchown`, error discarded) when preservation is on
and the platform is not Windows. -/
def extractSymlinkFS (pres : Bool) (o : FatalOracle) (mo : MetaOracle)
    (fs : FS) (h : Header) (target : Str) : FS × Option Err :=
  match unlinkFS o fs target with
  | (fs1, some e) => (fs1, some e)
  | (fs1, none) =>
    if o.symlinkOk target = false then (fs1, some (.createSymlinkFailed target))
    else
      let fs2 := alInsert fs1 target ⟨.symlink h.linkname, freshLinkMeta⟩
      (if pres && !goosWindows then lchownIf mo fs2 target h.uid h.gid else fs2, none)

/-- `extractLink` (lines 384-407): unlink, `os.Link(h.Linkname, target)`
(modelled as binding `target` to the node of `h.Linkname`; inode sharing is
not modelled), then the full best-effort metadata block when preservation is
on. -/
def extractLinkFS (pres : Bool) (o : FatalOracle) (mo : MetaOracle)
    (fs : FS) (h : Header) (target : Str) : FS × Option Err :=
  match unlinkFS o fs target with
  | (fs1, some e) => (fs1, some e)
  | (fs1, none) =>
    match alLookup fs1 h.linkname with
    | none => (fs1, some (.createLinkFailed h.linkname))
    | some n =>
      if o.linkOk target = false then (fs1, some (.createLinkFailed h.linkname))
      else
        let fs2 := alInsert fs1 target n
        (if pres then applyFileMeta mo fs2 target h else fs2, none)

/-- The destination path computation of `Extract` (lines 256-266): a name
equal to the destination or absolute is used verbatim; otherwise the
normalised relative name is joined under the destination. -/
def extractTarget (dst nm : Str) : Option Str :=
  if dst = nm ∨ goIsAbs nm = true then some nm
  else
    match relative dst nm with
    | none => none
    | some name => some (goJoin2 dst name)

/-- State threaded through the `Extract` loop: the running byte count, the
filesystem, the `dirMetadata` map, and a specification-only trace `dirSeen`
of the directory-entry targets in processing order (no operation branches on
it). -/
structure EState where
  written : Int
  fs : FS
  pending : List (Str × Meta)
  dirSeen : List Str
deriving DecidableEq

/-- One iteration of the `Extract` loop body for a non-nil header (lines
256-326).  The second component is `none` to continue, or
`some (w, e)` when the loop returns `w` and error `e`.  Note the literal
`0` byte counts returned on a relative-name failure and on a parent-directory
creation failure, and that `written` is updated with `extractRegular`'s byte
count before the error check. -/
def extractEntry (pres : Bool) (dst : Str) (o : FatalOracle) (mo : MetaOracle)
    (st : EState) (h : Header) : EState × Option (Int × Err) :=
  match extractTarget dst h.name with
  | none => (st, some (0, .relNameFailed))
  | some target =>
    if o.mkdirOk (goDir target) = false then (st, some (0, .ensureDirFailed target))
    else
      let st1 : EState :=
        ⟨st.written, mkdirAllFS st.fs (goDir target) defaultDirPerm, st.pending, st.dirSeen⟩
      match h.typeflag with
      | .dir =>
        if pres then
          let pd := alInsert st1.pending target ⟨h.mode, h.accessTime, h.modTime, h.uid, h.gid⟩
          let ds := st1.dirSeen ++ [target]
          if o.mkdirOk target then
            (⟨st1.written, mkdirAllFS st1.fs target defaultDirPerm, pd, ds⟩, none)
          else
            (⟨st1.written, st1.fs, pd, ds⟩, some (st1.written, .createDirFailed target))
        else
          match extractDirFS o st1.fs h target with
          | (fs2, none) => (⟨st1.written, fs2, st1.pending, st1.dirSeen⟩, none)
          | (fs2, some e) => (⟨st1.written, fs2, st1.pending, st1.dirSeen⟩, some (st1.written, e))
      | .reg | .regA | .chr | .blk | .fifo =>
        match extractRegularFS pres o mo st1.fs h target with
        | (fs2, n, none) => (⟨st1.written + n, fs2, st1.pending, st1.dirSeen⟩, none)
        | (fs2, n, some e) =>
          (⟨st1.written + n, fs2, st1.pending, st1.dirSeen⟩,
            some (st1.written + n, .extractRegularFailed e))
      | .symlink =>
        match extractSymlinkFS pres o mo st1.fs h target with
        | (fs2, none) => (⟨st1.written, fs2, st1.pending, st1.dirSeen⟩, none)
        | (fs2, some e) =>
          (⟨st1.written, fs2, st1.pending, st1.dirSeen⟩, some (st1.written, .extractSymlinkFailed e))
      | .link =>
        match extractLinkFS pres o mo st1.fs h target with
        | (fs2, none) => (⟨st1.written, fs2, st1.pending, st1.dirSeen⟩, none)
        | (fs2, some e) =>
          (⟨st1.written, fs2, st1.pending, st1.dirSeen⟩, some (st1.written, .extractLinkFailed e))
      | .xGlobalHeader => (st1, none)
      | .other c => (st1, some (st1.written, .unknownType target (.other c)))

/-- The inner `j` loop of the length sort at lines 232-238: carry the value
currently in slot `i` through the remaining slots, swapping whenever it is
shorter. -/
def selPass (a : Str) : List Str → Str × List Str
  | [] => (a, [])
  | b :: rest =>
    if a.length < b.length then
      let p := selPass b rest
      (p.1, a :: p.2)
    else
      let p := selPass a rest
      (p.1, b :: p.2)

lemma selPass_len (a : Str) (l : List Str) : (selPass a l).2.length = l.length := by
  induction l generalizing a with
  | nil => simp [selPass]
  | cons b rest ih =>
    by_cases hc : a.length < b.length <;> simp [selPass, hc, ih]

/-- The double loop at lines 232-238: selection sort of the directory list by
descending string length. -/
def selSort (l : List Str) : List Str :=
  match l with
  | [] => []
  | a :: rest =>
    let p := selPass a rest
    p.1 :: selSort p.2
termination_by l.length
decreasing_by simp [selPass_len]

/-- The per-directory application at lines 240-247: chmod, chtimes, chown
(skipped on Windows), all error returns discarded. -/
def applyDirMeta (mo : MetaOracle) (pending : List (Str × Meta)) (fs : FS) (d : Str) : FS :=
  match alLookup pending d with
  | none => fs
  | some m =>
    let fs1 := chmodIf mo fs d m.mode
    let fs2 := chtimesIf mo fs1 d m.atime m.mtime
    if goosWindows then fs2 else chownIf mo fs2 d m.uid m.gid

/-- The `io.EOF` branch with metadata preservation on (lines 224-248): sort
the pending directories by descending length and apply each record.  The Go
map iteration order is unspecified; `flushDirsWith` takes the pre-sort
enumeration explicitly, and `flushDirs` instantiates it with the map's
insertion order. -/
def flushDirsWith (mo : MetaOracle) (st : EState) (dirs0 : List Str) : EState :=
  ⟨st.written, (selSort dirs0).foldl (applyDirMeta mo st.pending) st.fs, st.pending, st.dirSeen⟩

/-- `flushDirsWith` at the canonical enumeration of the map. -/
def flushDirs (mo : MetaOracle) (st : EState) : EState :=
  flushDirsWith mo st (st.pending.map Prod.fst)

/-- How the archive stream ends: `io.EOF`, or any other `tar.Reader` error. -/
inductive Terminal
  | eof | readErr
deriving DecidableEq

/-- The `Extract` loop (lines 218-327) over the remaining stream: each
element of the list is one `tr.Next()` result (`none` models the defensive
`h == nil` skip), and `t` is how the stream ends afterwards.  Returns the
byte count and error of `Extract` and the final state. -/
def extractLoop (pres : Bool) (dst : Str) (o : FatalOracle) (mo : MetaOracle) :
    EState → List (Option Header) → Terminal → Int × Option Err × EState
  | st, [], .eof =>
    if pres then
      let st2 := flushDirs mo st
      (st2.written, none, st2)
    else (st.written, none, st)
  | st, [], .readErr => (st.written, some .archiveNotReadable, st)
  | st, none :: rest, t => extractLoop pres dst o mo st rest t
  | st, some h :: rest, t =>
    match extractEntry pres dst o mo st h with
    | (st2, none) => extractLoop pres dst o mo st2 rest t
    | (st2, some (w, e)) => (w, some e, st2)

/-- The `Archive` struct (root, skipSymlinks, preserveMetadata). -/
structure Archive where
  root : Str
  skipSymlinks : Bool
  preserveMetadata : Bool
deriving DecidableEq

/-- `New`: metadata preservation defaults to off. -/
def Archive.new (root : Str) (skipSymlinks : Bool) : Archive := ⟨root, skipSymlinks, false⟩

/-- `NewWithPreserveMetadata`. -/
def Archive.newWithPreserveMetadata (root : Str) (skipSymlinks preserveMetadata : Bool) :
    Archive := ⟨root, skipSymlinks, preserveMetadata⟩

/-- `Extract(dst, r)` on a stream of headers over an initial filesystem. -/
def Archive.extract (a : Archive) (dst : Str) (o : FatalOracle) (mo : MetaOracle)
    (fs : FS) (evs : List (Option Header)) (t : Terminal) : Int × Option Err × EState :=
  extractLoop a.preserveMetadata dst o mo ⟨0, fs, [], []⟩ evs t

/-! ### Creation (`Create`, `writeToArchive` and helpers, lines 49-200)

`filepath.Walk` is an external traversal: it hands the callback a sequence of
`(path, info, err)` triples.  The embedding takes that visit sequence as
input and embeds the callback `writeToArchive` faithfully over it. -/

/-- The file kinds `os.FileInfo.Mode()` distinguishes for header creation. -/
inductive FKind
  | regular | dir | symlink | chr | blk | fifo | socket
deriving DecidableEq

/-- The slice of `os.FileInfo` the callback reads: base name, kind,
permission bits, modification time, the `syscall.Stat_t` data when available
(uid, gid, atime, ctime), and the `os.Readlink` result for symlinks (`none`
models a readlink error). -/
structure FileInfo where
  fname : Str
  kind : FKind
  perm : Int
  modTime : GoTime
  statData : Option (Int × Int × GoTime × GoTime)
  linkTarget : Option Str
deriving DecidableEq

/-- Header type flag for a file kind. -/
def flagOf : FKind → TypeFlag
  | .regular => .reg
  | .dir => .dir
  | .symlink => .symlink
  | .chr => .chr
  | .blk => .blk
  | .fifo => .fifo
  | .socket => .reg

/-- `tar.FileInfoHeader(fi, link)`: fails for sockets; otherwise builds a
header with the zero (`unknown`) format, the link argument as linkname for
symlinks, and — on POSIX, via the `sysStat` hook over `syscall.Stat_t` —
the owner ids and access/change times. -/
def fileInfoHeader (fi : FileInfo) (link : Str) : Option Header :=
  match fi.kind with
  | .socket => none
  | _ =>
    let lnk : Str := if fi.kind = .symlink then link else []
    some (match fi.statData with
      | none => ⟨fi.fname, flagOf fi.kind, fi.perm, fi.modTime, timeZero, timeZero,
          0, 0, lnk, .unknown, []⟩
      | some (u, g, a, c) => ⟨fi.fname, flagOf fi.kind, fi.perm, fi.modTime, a, c,
          u, g, lnk, .unknown, []⟩)

/-- The metadata block of `writeToArchive` (lines 91-104): force the PAX
format and, off Windows when the `syscall.Stat_t` is available, install the
owner ids and set both access and change time to the modification time. -/
def presHeader (fi : FileInfo) (h : Header) : Header :=
  let hp : Header := ⟨h.name, h.typeflag, h.mode, h.modTime, h.accessTime, h.changeTime,
    h.uid, h.gid, h.linkname, .pax, h.payload⟩
  if goosWindows then hp
  else
    match fi.statData with
    | none => hp
    | some (u, g, _, _) => ⟨hp.name, hp.typeflag, hp.mode, hp.modTime, fi.modTime, fi.modTime,
        u, g, hp.linkname, hp.format, hp.payload⟩

/-- `createSymlinkHeader` (lines 172-184): `os.Readlink`, then a fresh
`tar.FileInfoHeader` with the link target — note the fresh header has the
zero format again. -/
def createSymlinkHeader (fi : FileInfo) : Option Header :=
  match fi.linkTarget with
  | none => none
  | some lnk => fileInfoHeader fi lnk

/-- Replace a header's name (the `h.Name = name` assignment, line 130). -/
def withName (h : Header) (nm : Str) : Header :=
  ⟨nm, h.typeflag, h.mode, h.modTime, h.accessTime, h.changeTime,
    h.uid, h.gid, h.linkname, h.format, h.payload⟩

/-- One `filepath.Walk` visit as seen by the callback, with the oracle bits
for the calls made while handling it: the walk-supplied error (abstracted by
an id), the `os.Open` success and the `io.Copy` outcome for the payload, the
file's bytes, and the `tw.WriteHeader` success. -/
structure Visit where
  vpath : Str
  vinfo : Option FileInfo
  verr : Option Nat
  vopenOk : Bool
  vcopy : Option Nat
  vcontent : List Nat
  vwriteHdrOk : Bool
deriving DecidableEq

/-- `writeFileToArchive` (lines 186-200): open the source file and copy it
into the tar writer; a copy failure reports the partial count, which the
caller discards. -/
def writeFileToArchive (v : Visit) : Int × Option Err :=
  if v.vopenOk = false then (0, some (.openFailed v.vpath))
  else
    match v.vcopy with
    | some k => ((min k v.vcontent.length : Nat), some (.copyFailed v.vpath))
    | none => ((v.vcontent.length : Nat), none)

/-- The name resolution of `writeToArchive` (lines 117-128): absolute paths
keep their absolute (cleaned, per `filepath.Abs`) name, relative-mode paths
pass through verbatim, and otherwise `relative` computes the archive name. -/
def resolveName (root : Str) (isRel : Bool) (path : Str) : Option Str :=
  if goIsAbs path then some (clean path)
  else if isRel then some path
  else relative root path

/-- The body of the `writeToArchive` callback (lines 73-152) for one visit.
Returns the headers written to the tar stream (the header is written before
the payload copy, so it is emitted even when the copy then fails), the byte
count added to `written` (zero unless a regular file's payload was fully
copied — on a copy error the count `n` is dropped before the accumulation at
line 145), and the callback's error. -/
def wtaStep (root : Str) (skipSymlinks isRel pres : Bool) (v : Visit) :
    List Header × Int × Option Err :=
  match v.verr with
  | some k => ([], 0, some (.passedIn k))
  | none =>
  match v.vinfo with
  | none => ([], 0, some .noFileInfo)
  | some fi =>
  match fileInfoHeader fi fi.fname with
  | none => ([], 0, some (.headerFailed v.vpath))
  | some h0 =>
  let h1 := if pres then presHeader fi h0 else h0
  if fi.kind = .symlink ∧ skipSymlinks then ([], 0, none)
  else
    let hres : Option Header :=
      if fi.kind = .symlink then createSymlinkHeader fi else some h1
    match hres with
    | none => ([], 0, some (.symlinkHeaderFailed v.vpath))
    | some hh =>
    match resolveName root isRel v.vpath with
    | none => ([], 0, some (.relFailed v.vpath root))
    | some nm =>
    let hh2 := withName hh nm
    if v.vwriteHdrOk = false then ([], 0, some (.writeHeaderFailed v.vpath))
    else if fi.kind = .regular then
      match writeFileToArchive v with
      | (_, some e) => ([hh2], 0, some (.writeFileFailed e))
      | (n, none) => ([hh2], n, none)
    else ([hh2], 0, none)

/-- `filepath.Walk(src, writeToArchive(...))`: fold the callback over the
visit sequence, accumulating `written` and the emitted headers, stopping at
the first callback error. -/
def walkVisits (root : Str) (sk isRel pres : Bool) :
    Int → List Header → List Visit → Int × List Header × Option Err
  | w, hs, [] => (w, hs, none)
  | w, hs, v :: rest =>
    match wtaStep root sk isRel pres v with
    | (nh, n, none) => walkVisits root sk isRel pres (w + n) (hs ++ nh) rest
    | (nh, _, some e) => (w, hs ++ nh, some e)

/-- One requested source path of `Create`: whether `os.Lstat` succeeds on it
and the visits its walk produces. -/
structure SourceSpec where
  spath : Str
  statOk : Bool
  visits : List Visit
deriving DecidableEq

/-- The `Create` source loop (lines 52-70): stat each source, walk it, abort
on the first failure. -/
def createLoop (root : Str) (sk isRel pres : Bool) :
    Int → List Header → List SourceSpec → Int × List Header × Option Err
  | w, hs, [] => (w, hs, none)
  | w, hs, s :: rest =>
    if s.statOk = false then (w, hs, some (.srcNotReachable s.spath))
    else
      match walkVisits root sk isRel pres w hs s.visits with
      | (w2, hs2, some e) => (w2, hs2, some (.walkFailed e))
      | (w2, hs2, none) => createLoop root sk isRel pres w2 hs2 rest

/-- `Create(srcs, w, isRelativePath)`: returns the byte count, the headers
written to the archive stream, and the error. -/
def Archive.create (a : Archive) (srcs : List SourceSpec) (isRel : Bool) :
    Int × List Header × Option Err :=
  createLoop a.root a.skipSymlinks isRel a.preserveMetadata 0 [] srcs

/-! ### Concrete oracles used by witnesses and counterexamples -/

/-- Every fallible call succeeds. -/
def oAllOk : FatalOracle :=
  ⟨fun _ => true, fun _ => true, fun _ => none, fun _ => true, fun _ => true, fun _ => true⟩

/-- Every fallible call succeeds except `os.Remove`. -/
def oNoRemove : FatalOracle :=
  ⟨fun _ => true, fun _ => true, fun _ => none, fun _ => true, fun _ => true, fun _ => false⟩

/-- Every metadata call succeeds. -/
def moAllOk : MetaOracle := ⟨fun _ => true, fun _ => true, fun _ => true, fun _ => true⟩

/-- Every metadata call fails (an unprivileged caller). -/
def moNoneOk : MetaOracle := ⟨fun _ => false, fun _ => false, fun _ => false, fun _ => false⟩

/-! ### Association-list lemmas -/

lemma alLookup_insert {α : Type} (l : List (Str × α)) (p q : Str) (n : α) :
    alLookup (alInsert l p n) q = if p = q then some n else alLookup l q := by
  induction l with
  | nil => by_cases h : p = q <;> simp [alInsert, alLookup, h]
  | cons x rest ih =>
    obtain ⟨xk, xv⟩ := x
    by_cases hx : xk = p
    · subst hx
      by_cases hq : xk = q <;> simp [alInsert, alLookup, hq]
    · by_cases hq : xk = q
      · subst hq
        have : ¬ p = xk := fun hc => hx hc.symm
        simp [alInsert, alLookup, hx, this]
      · simp [alInsert, alLookup, hx, hq, ih]

lemma alLookup_insert_self {α : Type} (l : List (Str × α)) (p : Str) (n : α) :
    alLookup (alInsert l p n) p = some n := by
  simp [alLookup_insert]

lemma alLookup_updMeta (fs : FS) (p : Str) (f : Meta → Meta) (q : Str) :
    alLookup (updMeta fs p f) q =
      if p = q then (alLookup fs p).map (fun n => ⟨n.core, f n.meta⟩) else alLookup fs q := by
  unfold updMeta
  cases hl : alLookup fs p with
  | none =>
    by_cases hq : p = q
    · subst hq; simp [hl]
    · simp [hq]
  | some n =>
    by_cases hq : p = q
    · subst hq; simp [alLookup_insert, hl]
    · simp [alLookup_insert, hq]

lemma lookup_core_updMeta (fs : FS) (p : Str) (f : Meta → Meta) (q : Str) :
    (alLookup (updMeta fs p f) q).map Node.core = (alLookup fs q).map Node.core := by
  rw [alLookup_updMeta]
  by_cases hq : p = q
  · subst hq
    cases alLookup fs p <;> simp
  · simp [hq]

lemma lookup_core_chmodIf (mo : MetaOracle) (fs : FS) (p : Str) (m : Int) (q : Str) :
    (alLookup (chmodIf mo fs p m) q).map Node.core = (alLookup fs q).map Node.core := by
  unfold chmodIf; split
  · exact lookup_core_updMeta ..
  · rfl

lemma lookup_core_chtimesIf (mo : MetaOracle) (fs : FS) (p : Str) (a m : GoTime) (q : Str) :
    (alLookup (chtimesIf mo fs p a m) q).map Node.core = (alLookup fs q).map Node.core := by
  unfold chtimesIf; split
  · exact lookup_core_updMeta ..
  · rfl

lemma lookup_core_chownIf (mo : MetaOracle) (fs : FS) (p : Str) (u g : Int) (q : Str) :
    (alLookup (chownIf mo fs p u g) q).map Node.core = (alLookup fs q).map Node.core := by
  unfold chownIf; split
  · exact lookup_core_updMeta ..
  · rfl

lemma lookup_core_applyFileMeta (mo : MetaOracle) (fs : FS) (t : Str) (h : Header) (q : Str) :
    (alLookup (applyFileMeta mo fs t h) q).map Node.core = (alLookup fs q).map Node.core := by
  unfold applyFileMeta
  simp only [goosWindows, Bool.false_eq_true, if_false]
  rw [lookup_core_chownIf, lookup_core_chtimesIf, lookup_core_chmodIf]

/-! ### Claim C10 -/

/-- Claim C10 (confirmed): for a symlink or hard-link destination with no
pre-existing entry (`os.Lstat` fails), `unlink` is a successful no-op — the
filesystem is unchanged, no error is produced, and `os.Remove` is not even
consulted (the result does not depend on the remove oracle); removal is
attempted (and its outcome observed) exactly when an entry exists at the
path. -/
theorem C10_unlink_noop_when_absent :
    (∀ (o o2 : FatalOracle) (fs : FS) (p : Str), alLookup fs p = none →
      unlinkFS o fs p = (fs, none) ∧ unlinkFS o fs p = unlinkFS o2 fs p) ∧
    (∀ (o : FatalOracle) (fs : FS) (p : Str) (n : Node), alLookup fs p = some n →
      unlinkFS o fs p =
        if o.removeOk p then (alErase fs p, none) else (fs, some (.unlinkFailed p))) := by
  constructor
  · intro o o2 fs p hnone
    unfold unlinkFS
    rw [hnone]
    exact ⟨rfl, rfl⟩
  · intro o fs p n hsome
    unfold unlinkFS
    rw [hsome]

/-- Witness for C10 at a concrete empty filesystem. -/
theorem C10_unlink_noop_when_absent_witness :
    unlinkFS oAllOk [] (str "x") = ([], none) ∧
    unlinkFS oAllOk [] (str "x") = unlinkFS oNoRemove [] (str "x") :=
  C10_unlink_noop_when_absent.1 oAllOk oNoRemove [] (str "x") rfl

/-! ### Claim C9 -/

/-- Claim C9 (confirmed): an archive entry whose name is absolute, or equal
to the destination root string, is written at that name verbatim — the name
is not joined under the destination root — so absolute-named entries are not
confined to the destination root (concretely, `/etc/passwd` extracted with
destination `/cache` is written outside `/cache`). -/
theorem C9_absolute_names_extracted_verbatim :
    (∀ dst nm, goIsAbs nm = true → extractTarget dst nm = some nm) ∧
    (∀ dst, extractTarget dst dst = some dst) ∧
    (extractTarget (str "/cache") (str "/etc/passwd") = some (str "/etc/passwd") ∧
      (str "/cache").isPrefixOf (str "/etc/passwd") = false) := by
  refine ⟨?_, ?_, by decide⟩
  · intro dst nm habs
    unfold extractTarget
    rw [if_pos (Or.inr habs)]
  · intro dst
    unfold extractTarget
    rw [if_pos (Or.inl rfl)]

/-- Witness for C9 at a concrete absolute entry name. -/
theorem C9_absolute_names_extracted_verbatim_witness :
    extractTarget (str "/d") (str "/a/b") = some (str "/a/b") :=
  C9_absolute_names_extracted_verbatim.1 (str "/d") (str "/a/b") (by decide)

/-! ### Claim C4: shape of `relative`'s output -/

lemma splitSl_ne_nil (s : Str) : splitSl s ≠ [] := by
  cases s with
  | nil => simp [splitSl]
  | cons a rest =>
    simp only [splitSl]
    split
    · simp
    · cases h : splitSl rest <;> simp

lemma splitSl_no_slash : ∀ (s : Str), ∀ seg ∈ splitSl s, '/' ∉ seg := by
  intro s
  induction s with
  | nil =>
    intro seg hm
    simp [splitSl] at hm
    simp [hm]
  | cons a rest ih =>
    intro seg hm
    simp only [splitSl] at hm
    by_cases ha : a = '/'
    · rw [if_pos ha] at hm
      rcases List.mem_cons.mp hm with h | h
      · simp [h]
      · exact ih seg h
    · rw [if_neg ha] at hm
      cases hr : splitSl rest with
      | nil => exact absurd hr (splitSl_ne_nil rest)
      | cons h0 t0 =>
        rw [hr] at hm
        rcases List.mem_cons.mp hm with h | h
        · subst h
          intro hc
          rcases List.mem_cons.mp hc with hc | hc
          · exact ha hc.symm
          · exact ih h0 (by rw [hr]; exact List.mem_cons_self h0 t0) hc
        · exact ih seg (by rw [hr]; exact List.mem_cons_of_mem h0 h)

/-- A well-formed path element on the `Clean` stack: non-empty and free of
separators. -/
def GoodSeg (e : Str) : Prop := e ≠ [] ∧ '/' ∉ e

lemma cstep_good (rooted : Bool) (stack : List Str) (seg : Str)
    (hs : ∀ e ∈ stack, GoodSeg e) (hseg : '/' ∉ seg) :
    ∀ e ∈ cstep rooted stack seg, GoodSeg e := by
  intro e he
  by_cases h1 : seg = [] ∨ seg = ['.']
  · simp only [cstep] at he
    rw [if_pos h1] at he
    exact hs e he
  · by_cases h2 : seg = ['.', '.']
    · subst h2
      cases stack with
      | nil =>
        simp only [cstep] at he
        rw [if_pos trivial] at he
        cases rooted with
        | true => simp at he
        | false =>
          have : e = ['.', '.'] := by simpa using he
          subst this
          exact ⟨by simp, by decide⟩
      | cons t rest =>
        simp only [cstep] at he
        rw [if_pos trivial] at he
        by_cases ht : t = ['.', '.']
        · rw [if_pos ht] at he
          rcases List.mem_cons.mp he with h | h
          · subst h; exact ⟨by simp, by decide⟩
          · exact hs e h
        · rw [if_neg ht] at he
          exact hs e (List.mem_cons_of_mem t he)
    · simp only [cstep] at he
      rw [if_neg h1, if_neg h2] at he
      rcases List.mem_cons.mp he with h | h
      · subst h
        exact ⟨fun hnil => h1 (Or.inl hnil), hseg⟩
      · exact hs e h

lemma foldl_cstep_good (rooted : Bool) :
    ∀ (segs : List Str), (∀ seg ∈ segs, '/' ∉ seg) →
    ∀ (stack : List Str), (∀ e ∈ stack, GoodSeg e) →
    ∀ e ∈ segs.foldl (cstep rooted) stack, GoodSeg e := by
  intro segs
  induction segs with
  | nil => intro _ stack hs; simpa using hs
  | cons sg rest ih =>
    intro hsegs stack hs
    simp only [List.foldl_cons]
    exact ih (fun q hq => hsegs q (List.mem_cons_of_mem sg hq))
      (cstep rooted stack sg)
      (cstep_good rooted stack sg hs (hsegs sg (List.mem_cons_self sg rest)))

lemma joinSl_head (l : List Str) (hl : ∀ e ∈ l, GoodSeg e) :
    (joinSl l).head? ≠ some '/' := by
  cases l with
  | nil => simp [joinSl]
  | cons s rest =>
    have hg := hl s (List.mem_cons_self s rest)
    cases rest with
    | nil =>
      cases s with
      | nil => exact absurd rfl hg.1
      | cons c cs =>
        simp only [joinSl, List.head?]
        intro hc
        have : c = '/' := by injection hc
        exact hg.2 (this ▸ List.mem_cons_self c cs)
    | cons s2 r2 =>
      show ((s ++ '/' :: joinSl (s2 :: r2)).head? ≠ some '/')
      cases s with
      | nil => exact absurd rfl hg.1
      | cons c cs =>
        simp only [List.cons_append, List.head?]
        intro hc
        have : c = '/' := by injection hc
        exact hg.2 (this ▸ List.mem_cons_self c cs)

lemma trimPfx_slash_head (s : Str) (h : s.head? ≠ some '/') : trimPfx ['/'] s = s := by
  unfold trimPfx
  cases s with
  | nil => simp
  | cons c cs =>
    have hc : ¬ c = '/' := by
      intro hcc
      exact h (by rw [hcc]; rfl)
    have : (['/'].isPrefixOf (c :: cs)) = false := by
      simp [List.isPrefixOf]
      intro hcc
      exact absurd hcc.symm hc
    simp [this]

lemma trim_clean_head (s : Str) : (trimPfx ['/'] (clean s)).head? ≠ some '/' := by
  simp only [clean]
  by_cases hnil : s = []
  · rw [if_pos hnil]; decide
  · rw [if_neg hnil]
    have hgood : ∀ e ∈ ((splitSl s).foldl (cstep (goIsAbs s)) []).reverse, GoodSeg e := by
      intro e he
      exact foldl_cstep_good _ (splitSl s) (splitSl_no_slash s) [] (by simp) e
        (List.mem_reverse.mp he)
    have hjoin := joinSl_head _ hgood
    by_cases hr : goIsAbs s = true
    · rw [if_pos hr]
      have htrim : trimPfx ['/'] ('/' :: joinSl ((splitSl s).foldl (cstep (goIsAbs s)) []).reverse)
          = joinSl ((splitSl s).foldl (cstep (goIsAbs s)) []).reverse := by
        unfold trimPfx
        simp [List.isPrefixOf]
      rw [htrim]
      exact hjoin
    · rw [if_neg hr]
      by_cases hb : joinSl ((splitSl s).foldl (cstep (goIsAbs s)) []).reverse = []
      · rw [if_pos hb, trimPfx_slash_head ['.'] (by decide)]
        decide
      · rw [if_neg hb, trimPfx_slash_head _ hjoin]
        exact hjoin

lemma trimPfx_nil (p : Str) : trimPfx p [] = [] := by
  unfold trimPfx
  split <;> simp

/-- Claim C4 (amended): every archive name computed by `relative` has no
leading slash (and is forward-slash separated, which on the POSIX build is
immediate since `/` is the separator and `filepath.ToSlash` is the
identity); however, the name CAN begin with `../`: when the input path's
directory is a proper ancestor of the root, `filepath.Rel` returns a chain of
`..` elements whose last `..` carries no trailing separator, the
`strings.HasPrefix(rel, "../")` loop does not strip it, and it is re-joined
in front of the base name (see the counterexample). -/
theorem C4_relative_no_leading_slash :
    ∀ parent path r, relative parent path = some r → r.head? ≠ some '/' := by
  intro parent path r h
  unfold relative at h
  cases hg : goRel parent (goDir path) with
  | none => rw [hg] at h; exact absurd h (by simp)
  | some rel =>
    rw [hg] at h
    simp only [Option.some.injEq] at h
    subst h
    unfold goJoin2
    split
    · split
      · rw [trimPfx_nil]; simp
      · exact trim_clean_head _
    · exact trim_clean_head _

/-- Witness for C4 at a concrete in-root path. -/
theorem C4_relative_no_leading_slash_witness :
    relative (str "a") (str "b/c") = some (str "b/c") ∧ (str "b/c").head? ≠ some '/' :=
  ⟨by decide, C4_relative_no_leading_slash (str "a") (str "b/c") (str "b/c") (by decide)⟩

/-- Counterexample for C4 as stated: with root `a/b` and input path `a/x`
(whose directory `a` is a proper ancestor of the root), `filepath.Rel`
returns `..`, the strip loop leaves it in place (only `../` prefixes are
stripped), and the computed archive name is `../x` — it begins with `../`
and contains an upward-traversal segment. -/
theorem C4_counterexample :
    relative (str "a/b") (str "a/x") = some (str "../x") ∧
    (str "../").isPrefixOf (str "../x") = true := by decide

/-! ### Claim C5: regular-file extraction and (non-)truncation -/

/-- Claim C5 (amended): `extractRegular` opens the destination with
`os.O_CREATE|os.O_RDWR` — it creates a missing file but does NOT truncate an
existing one — and copies the payload from offset zero.  The resulting
content is the payload followed by whatever bytes of a pre-existing file lay
beyond the payload's length; it equals the payload exactly iff no longer
file previously existed at the path. -/
theorem C5_extract_regular_no_truncation
    (pres : Bool) (o : FatalOracle) (mo : MetaOracle) (fs : FS) (h : Header) (target : Str)
    (c : List Nat) (m : Meta)
    (hopen : o.openOk target = true) (hcopy : o.copyFail target = none)
    (hold : openRW fs target h.mode = some (c, m)) :
    ∃ fs2, extractRegularFS pres o mo fs h target = (fs2, (h.payload.length : Int), none) ∧
      (alLookup fs2 target).map Node.core =
        some (.file (h.payload ++ c.drop h.payload.length)) := by
  unfold extractRegularFS
  rw [hopen, hold, hcopy]
  simp only [Bool.true_eq_false, if_false]
  refine ⟨_, rfl, ?_⟩
  split
  · rw [lookup_core_applyFileMeta]
    rw [alLookup_insert_self]
    rfl
  · rw [alLookup_insert_self]
    rfl

/-- Witness for C5: extracting a 2-byte payload over an empty path yields
exactly the payload. -/
theorem C5_extract_regular_no_truncation_witness :
    ∃ fs2, extractRegularFS false oAllOk moAllOk []
        ⟨str "t", .reg, 420, timeZero, timeZero, timeZero, 0, 0, [], .unknown, [120, 121]⟩
        (str "t") = (fs2, (2 : Int), none) ∧
      (alLookup fs2 (str "t")).map Node.core = some (.file [120, 121]) :=
  C5_extract_regular_no_truncation false oAllOk moAllOk []
    ⟨str "t", .reg, 420, timeZero, timeZero, timeZero, 0, 0, [], .unknown, [120, 121]⟩
    (str "t") [] (freshMeta 420) rfl rfl rfl

/-- Counterexample for C5 as stated: extracting a 2-byte payload over an
existing 6-byte file leaves the old tail in place (`xyCDEF`), so the
restored content does not equal the payload — the open flags carry no
truncation. -/
theorem C5_counterexample :
    ((extractRegularFS false oAllOk moAllOk
        [(str "t", ⟨.file [65, 66, 67, 68, 69, 70], freshMeta 420⟩)]
        ⟨str "t", .reg, 420, timeZero, timeZero, timeZero, 0, 0, [], .unknown, [120, 121]⟩
        (str "t")).2.2 = none) ∧
    ((alLookup (extractRegularFS false oAllOk moAllOk
        [(str "t", ⟨.file [65, 66, 67, 68, 69, 70], freshMeta 420⟩)]
        ⟨str "t", .reg, 420, timeZero, timeZero, timeZero, 0, 0, [], .unknown, [120, 121]⟩
        (str "t")).1 (str "t")).map Node.core = some (.file [120, 121, 67, 68, 69, 70])) ∧
    [120, 121, 67, 68, 69, 70] ≠ [120, 121] := by decide

/-! ### Claim C7: symlink restoration -/

/-- Rebuild a header with a different payload stream (used to state that the
symlink restorer never reads the entry's content stream). -/
def withPayload (h : Header) (q : List Nat) : Header :=
  ⟨h.name, h.typeflag, h.mode, h.modTime, h.accessTime, h.changeTime,
    h.uid, h.gid, h.linkname, h.format, q⟩

/-- Claim C7 (confirmed): when the pre-creation removal and the link creation
succeed, `extractSymlink` removes any pre-existing entry and binds the path
to a symbolic link whose target string is exactly the header's `Linkname`;
the link's mode and timestamps are the fresh-creation defaults regardless of
the header (never chmod'ed or chtimes'd), ownership alone is applied — and
only when metadata preservation is on and `os.Lchown` succeeds; and the
entry's content stream is never read (the result is independent of the
payload). -/
theorem C7_symlink_restoration
    (pres : Bool) (o : FatalOracle) (mo : MetaOracle) (fs : FS) (h : Header) (target : Str)
    (hrm : alLookup fs target = none ∨ o.removeOk target = true)
    (hsym : o.symlinkOk target = true) :
    ∃ fs2 u g, extractSymlinkFS pres o mo fs h target = (fs2, none) ∧
      alLookup fs2 target = some ⟨.symlink h.linkname,
        ⟨freshLinkMeta.mode, freshLinkMeta.atime, freshLinkMeta.mtime, u, g⟩⟩ ∧
      ((pres = true ∧ mo.lchownOk target = true) → (u = h.uid ∧ g = h.gid)) ∧
      ((pres = false ∨ mo.lchownOk target = false) → (u = 0 ∧ g = 0)) ∧
      (∀ q, extractSymlinkFS pres o mo fs (withPayload h q) target = (fs2, none)) := by
  have hun : ∃ fs1, unlinkFS o fs target = (fs1, none) := by
    unfold unlinkFS
    rcases hrm with hnone | hok
    · rw [hnone]; exact ⟨fs, rfl⟩
    · cases hl : alLookup fs target with
      | none => exact ⟨fs, rfl⟩
      | some n => rw [hok]; exact ⟨alErase fs target, rfl⟩
  obtain ⟨fs1, hfs1⟩ := hun
  unfold extractSymlinkFS
  rw [hfs1, hsym]
  simp only [Bool.true_eq_false, if_false, goosWindows, Bool.not_false, Bool.and_true]
  by_cases hp : pres = true
  · rw [hp]
    simp only [if_true]
    unfold lchownIf
    by_cases hl : mo.lchownOk target = true
    · rw [if_pos hl]
      refine ⟨_, h.uid, h.gid, rfl, ?_, fun _ => ⟨rfl, rfl⟩, ?_, ?_⟩
      · rw [alLookup_updMeta]
        simp [alLookup_insert_self, freshLinkMeta]
      · rintro (hc | hc)
        · simp at hc
        · rw [hl] at hc
          simp at hc
      · intro q
        simp [withPayload, hl]
    · rw [if_neg hl]
      refine ⟨_, 0, 0, rfl, ?_, ?_, fun _ => ⟨rfl, rfl⟩, ?_⟩
      · rw [alLookup_insert_self]
        rfl
      · rintro ⟨-, hc⟩
        exact absurd hc hl
      · intro q
        simp [withPayload, hl]
  · have hp2 : pres = false := by
      cases pres
      · rfl
      · exact absurd rfl hp
    rw [hp2]
    simp only [Bool.false_eq_true, if_false]
    refine ⟨_, 0, 0, rfl, ?_, ?_, fun _ => ⟨rfl, rfl⟩, ?_⟩
    · rw [alLookup_insert_self]
      rfl
    · rintro ⟨hc, -⟩
      exact absurd hc (by simp [hp2])
    · intro q
      simp [withPayload]

/-- Witness for C7 on an empty filesystem with preservation on. -/
theorem C7_symlink_restoration_witness :
    ∃ fs2 u g, extractSymlinkFS true oAllOk moAllOk []
        ⟨str "L", .symlink, 511, timeZero, timeZero, timeZero, 7, 8, str "tgt", .unknown, []⟩
        (str "L") = (fs2, none) ∧
      alLookup fs2 (str "L") = some ⟨.symlink (str "tgt"),
        ⟨freshLinkMeta.mode, freshLinkMeta.atime, freshLinkMeta.mtime, u, g⟩⟩ ∧
      ((true = true ∧ moAllOk.lchownOk (str "L") = true) → (u = 7 ∧ g = 8)) ∧
      ((true = false ∨ moAllOk.lchownOk (str "L") = false) → (u = 0 ∧ g = 0)) ∧
      (∀ q, extractSymlinkFS true oAllOk moAllOk []
        (withPayload ⟨str "L", .symlink, 511, timeZero, timeZero, timeZero, 7, 8, str "tgt", .unknown, []⟩ q)
        (str "L") = (fs2, none)) :=
  C7_symlink_restoration true oAllOk moAllOk []
    ⟨str "L", .symlink, 511, timeZero, timeZero, timeZero, 7, 8, str "tgt", .unknown, []⟩
    (str "L") (Or.inl rfl) rfl

/-! ### Claim C1: what byte count an aborting `Extract` reports -/

/-- Claim C1 (amended): a `tar.Reader` error aborts `Extract` with the bytes
written so far (which may be zero), and every per-entry restore failure
aborts with the running byte count (including the partial bytes of a failed
regular-file copy) — EXCEPT the relative-name computation failure and the
parent-directory creation failure, which return the literal byte count `0`,
discarding the progress count (`return 0, ...` at lines 262 and 271).
Stated as: (1) the reader-error return; (2)-(3) the loop steps for an
aborting and a continuing entry; (4) every aborting entry reports either the
updated running count, or `0` exactly for the relative-name/parent-directory
failures. -/
lemma extractDirFS_err (o : FatalOracle) (fs : FS) (h : Header) (t : Str) (fs2 : FS) (e : Err)
    (hx : extractDirFS o fs h t = (fs2, some e)) : e = .createDirFailed t := by
  unfold extractDirFS at hx
  split at hx
  · exact Option.noConfusion (congrArg Prod.snd hx)
  · injection hx with h1 h2
    injection h2 with h2
    exact h2.symm

theorem C1_extract_error_returns :
    (∀ pres dst o mo (st : EState),
      extractLoop pres dst o mo st [] .readErr = (st.written, some .archiveNotReadable, st)) ∧
    (∀ pres dst o mo (st : EState) h st2 w e rest t,
      extractEntry pres dst o mo st h = (st2, some (w, e)) →
      extractLoop pres dst o mo st (some h :: rest) t = (w, some e, st2)) ∧
    (∀ pres dst o mo (st : EState) h st2 rest t,
      extractEntry pres dst o mo st h = (st2, none) →
      extractLoop pres dst o mo st (some h :: rest) t = extractLoop pres dst o mo st2 rest t) ∧
    (∀ pres dst o mo (st : EState) h st2 w e,
      extractEntry pres dst o mo st h = (st2, some (w, e)) →
      ((e = .relNameFailed ∨ ∃ tgt, e = .ensureDirFailed tgt) → w = 0) ∧
      ((∀ tgt, e ≠ .ensureDirFailed tgt) → e ≠ .relNameFailed → w = st2.written)) := by
  refine ⟨?_, ?_, ?_, ?_⟩
  · intro pres dst o mo st
    rfl
  · intro pres dst o mo st h st2 w e rest t hstep
    simp only [extractLoop, hstep]
  · intro pres dst o mo st h st2 rest t hstep
    simp only [extractLoop, hstep]
  · intro pres dst o mo st h st2 w e hstep
    simp only [extractEntry] at hstep
    all_goals try (split at hstep)
    all_goals try (split at hstep)
    all_goals try (split at hstep)
    all_goals try (split at hstep)
    all_goals try (split at hstep)
    all_goals injection hstep with h1 h2
    all_goals
      first
      | exact Option.noConfusion h2
      | (injection h2 with h2
         injection h2 with hw he
         subst h1
         subst hw
         subst he
         refine ⟨?_, ?_⟩
         · rintro (hc | ⟨tgt, hc⟩) <;>
             first
             | rfl
             | (cases hc <;>
                 (rename_i heq
                  exact absurd (extractDirFS_err _ _ _ _ _ _ heq) (by simp)))
         · intro hne1 hne2
           first
           | rfl
           | exact absurd rfl hne2
           | exact absurd rfl (hne1 _))

/-- Witness for C1: the reader-error return at a concrete state, and a
relative-name failure (absolute destination, relative entry name) returning
the literal `0` even though the state already counts 7 bytes. -/
theorem C1_extract_error_returns_witness :
    extractLoop false (str "/d") oAllOk moAllOk ⟨7, [], [], []⟩ [] .readErr
      = (7, some .archiveNotReadable, ⟨7, [], [], []⟩) ∧
    extractLoop false (str "/d") oAllOk moAllOk ⟨7, [], [], []⟩
      [some ⟨str "x", .reg, 420, timeZero, timeZero, timeZero, 0, 0, [], .unknown, [9]⟩] .eof
      = (0, some .relNameFailed, ⟨7, [], [], []⟩) :=
  ⟨C1_extract_error_returns.1 false (str "/d") oAllOk moAllOk ⟨7, [], [], []⟩,
   C1_extract_error_returns.2.1 false (str "/d") oAllOk moAllOk ⟨7, [], [], []⟩
     ⟨str "x", .reg, 420, timeZero, timeZero, timeZero, 0, 0, [], .unknown, [9]⟩
     ⟨7, [], [], []⟩ 0 .relNameFailed [] .eof (by decide)⟩

/-- Counterexample for C1 as stated: extracting to destination `/d` an
archive with an absolute-named 5-byte file followed by a relative-named
entry: the first entry writes 5 bytes, the second entry's relative-name
computation fails (`filepath.Rel("/d", ".")` mixes absolute and relative),
and `Extract` returns byte count `0` — not the 5 bytes written so far (and
in particular not a non-zero count). -/
theorem C1_counterexample :
    (((Archive.new (str "/d") false).extract (str "/d") oAllOk moAllOk []
        [some ⟨str "/f", .reg, 420, timeZero, timeZero, timeZero, 0, 0, [], .unknown, [1, 2, 3, 4, 5]⟩,
         some ⟨str "x", .reg, 420, timeZero, timeZero, timeZero, 0, 0, [], .unknown, [9]⟩]
        .eof).1 = 0) ∧
    (((Archive.new (str "/d") false).extract (str "/d") oAllOk moAllOk []
        [some ⟨str "/f", .reg, 420, timeZero, timeZero, timeZero, 0, 0, [], .unknown, [1, 2, 3, 4, 5]⟩,
         some ⟨str "x", .reg, 420, timeZero, timeZero, timeZero, 0, 0, [], .unknown, [9]⟩]
        .eof).2.1 = some .relNameFailed) ∧
    (((Archive.new (str "/d") false).extract (str "/d") oAllOk moAllOk []
        [some ⟨str "/f", .reg, 420, timeZero, timeZero, timeZero, 0, 0, [], .unknown, [1, 2, 3, 4, 5]⟩]
        .eof).1 = 5) ∧
    ((0 : Int) ≠ 5) := by decide

/-! ### Claim C2: header formats produced by `Create` -/

lemma flagOf_symlink_iff (k : FKind) : flagOf k = .symlink ↔ k = .symlink := by
  cases k <;> simp [flagOf]

lemma fileInfoHeader_shape (fi : FileInfo) (link : Str) (h : Header)
    (hx : fileInfoHeader fi link = some h) :
    h.typeflag = flagOf fi.kind ∧ h.format = .unknown := by
  unfold fileInfoHeader at hx
  split at hx
  · exact Option.noConfusion hx
  · cases hs : fi.statData with
    | none =>
      rw [hs] at hx
      injection hx with hx
      subst hx
      exact ⟨rfl, rfl⟩
    | some d =>
      obtain ⟨u, g, a, c⟩ := d
      rw [hs] at hx
      injection hx with hx
      subst hx
      exact ⟨rfl, rfl⟩

lemma presHeader_shape (fi : FileInfo) (h : Header) :
    (presHeader fi h).format = .pax ∧ (presHeader fi h).typeflag = h.typeflag := by
  unfold presHeader
  simp only [goosWindows, Bool.false_eq_true, if_false]
  cases fi.statData with
  | none => exact ⟨rfl, rfl⟩
  | some d =>
    obtain ⟨u, g, a, c⟩ := d
    exact ⟨rfl, rfl⟩

lemma createSymlinkHeader_shape (fi : FileInfo) (h : Header)
    (hx : createSymlinkHeader fi = some h) :
    h.typeflag = flagOf fi.kind ∧ h.format = .unknown := by
  unfold createSymlinkHeader at hx
  cases hl : fi.linkTarget with
  | none => rw [hl] at hx; exact Option.noConfusion hx
  | some lnk =>
    rw [hl] at hx
    exact fileInfoHeader_shape fi lnk h hx

/-- Format and type flag of every header `writeToArchive` emits: symlink
entries always carry the zero format (their header is rebuilt by
`createSymlinkHeader` after the metadata block ran), non-symlink entries
carry PAX exactly when metadata preservation is on. -/
lemma wtaStep_format (root : Str) (sk isRel pres : Bool) (v : Visit) :
    ∀ h ∈ (wtaStep root sk isRel pres v).1,
      (h.typeflag = .symlink → h.format = .unknown) ∧
      (h.typeflag ≠ .symlink →
        (if pres then h.format = .pax else h.format = .unknown)) := by
  intro h hm
  unfold wtaStep at hm
  cases hverr : v.verr with
  | some k => simp only [hverr] at hm; simp at hm
  | none =>
  simp only [hverr] at hm
  cases hinfo : v.vinfo with
  | none => simp only [hinfo] at hm; simp at hm
  | some fi =>
  simp only [hinfo] at hm
  cases hfih : fileInfoHeader fi fi.fname with
  | none => simp only [hfih] at hm; simp at hm
  | some h0 =>
  simp only [hfih] at hm
  by_cases hss : fi.kind = .symlink ∧ sk = true
  · rw [if_pos hss] at hm; simp at hm
  · rw [if_neg hss] at hm
    by_cases hk : fi.kind = .symlink
    · rw [if_pos hk] at hm
      cases hcsh : createSymlinkHeader fi with
      | none => simp only [hcsh] at hm; simp at hm
      | some hh =>
        simp only [hcsh] at hm
        cases hnm : resolveName root isRel v.vpath with
        | none => simp only [hnm] at hm; simp at hm
        | some nm =>
          simp only [hnm] at hm
          have hshape := createSymlinkHeader_shape fi hh hcsh
          have hflag : hh.typeflag = .symlink := by
            rw [hshape.1, flagOf_symlink_iff]
            exact hk
          have hhm : h = withName hh nm := by
            by_cases hwh : v.vwriteHdrOk = false
            · rw [if_pos hwh] at hm; simp at hm
            · rw [if_neg hwh] at hm
              by_cases hreg : fi.kind = .regular
              · exact absurd hk (by rw [hreg]; simp)
              · rw [if_neg hreg] at hm
                simpa using hm
          subst hhm
          refine ⟨fun _ => ?_, fun hc => ?_⟩
          · show hh.format = .unknown
            exact hshape.2
          · exact absurd hflag hc
    · rw [if_neg hk] at hm
      cases hnm : resolveName root isRel v.vpath with
      | none => simp only [hnm] at hm; simp at hm
      | some nm =>
        simp only [hnm] at hm
        have hshape0 := fileInfoHeader_shape fi fi.fname h0 hfih
        have hh1 : ∀ hx : Header, hx = (if pres then presHeader fi h0 else h0) →
            hx.typeflag = flagOf fi.kind ∧
            (if pres then hx.format = .pax else hx.format = .unknown) := by
          intro hx hxe
          cases pres with
          | true =>
            rw [if_pos rfl] at hxe
            subst hxe
            rw [if_pos rfl]
            exact ⟨(presHeader_shape fi h0).2.trans hshape0.1, (presHeader_shape fi h0).1⟩
          | false =>
            rw [if_neg (by simp)] at hxe
            subst hxe
            rw [if_neg (by simp)]
            exact ⟨hshape0.1, hshape0.2⟩
        have hhm : h = withName (if pres then presHeader fi h0 else h0) nm := by
          by_cases hwh : v.vwriteHdrOk = false
          · rw [if_pos hwh] at hm; simp at hm
          · rw [if_neg hwh] at hm
            by_cases hreg : fi.kind = .regular
            · rw [if_pos hreg] at hm
              cases hwf : writeFileToArchive v with
              | mk n me =>
                simp only [hwf] at hm
                cases me with
                | none => simpa using hm
                | some e => simpa using hm
            · rw [if_neg hreg] at hm
              simpa using hm
        subst hhm
        obtain ⟨hty, hfm⟩ := hh1 _ rfl
        have htyw : (withName (if pres then presHeader fi h0 else h0) nm).typeflag
            = flagOf fi.kind := hty
        refine ⟨fun hc => ?_, fun _ => ?_⟩
        · exact absurd ((flagOf_symlink_iff fi.kind).mp (htyw ▸ hc)) hk
        · exact hfm

/-- Every header emitted by a walk satisfies a property that every
`wtaStep`-emitted header satisfies (fold invariant). -/
lemma walkVisits_prop (P : Header → Prop) (root : Str) (sk isRel pres : Bool)
    (hstep : ∀ (v : Visit) (h : Header), h ∈ (wtaStep root sk isRel pres v).1 → P h) :
    ∀ (vs : List Visit) (w : Int) (hs : List Header), (∀ h ∈ hs, P h) →
      ∀ h ∈ (walkVisits root sk isRel pres w hs vs).2.1, P h := by
  intro vs
  induction vs with
  | nil => intro w hs hhs h hm; exact hhs h hm
  | cons v rest ih =>
    intro w hs hhs h hm
    unfold walkVisits at hm
    rcases hww : wtaStep root sk isRel pres v with ⟨nh, n, me⟩
    rw [hww] at hm
    have hext : ∀ hx ∈ hs ++ nh, P hx := by
      intro hx hxm
      rcases List.mem_append.mp hxm with hmem | hmem
      · exact hhs hx hmem
      · exact hstep v hx (by rw [hww]; exact hmem)
    cases me with
    | none => exact ih (w + n) (hs ++ nh) hext h hm
    | some e => exact hext h hm

/-- The same fold invariant through the `Create` source loop. -/
lemma createLoop_prop (P : Header → Prop) (root : Str) (sk isRel pres : Bool)
    (hstep : ∀ (v : Visit) (h : Header), h ∈ (wtaStep root sk isRel pres v).1 → P h) :
    ∀ (srcs : List SourceSpec) (w : Int) (hs : List Header), (∀ h ∈ hs, P h) →
      ∀ h ∈ (createLoop root sk isRel pres w hs srcs).2.1, P h := by
  intro srcs
  induction srcs with
  | nil => intro w hs hhs h hm; exact hhs h hm
  | cons s rest ih =>
    intro w hs hhs h hm
    unfold createLoop at hm
    by_cases hst : s.statOk = false
    · rw [if_pos hst] at hm
      exact hhs h hm
    · rw [if_neg hst] at hm
      rcases hww : walkVisits root sk isRel pres w hs s.visits with ⟨w2, hs2, me⟩
      rw [hww] at hm
      have hall : ∀ hx ∈ hs2, P hx := by
        intro hx hxm
        exact walkVisits_prop P root sk isRel pres hstep s.visits w hs hhs hx
          (by rw [hww]; exact hxm)
      cases me with
      | none => exact ih w2 hs2 hall h hm
      | some e => exact hall h hm

/-- Claim C2 (amended): with `preserveMetadata=true`, every non-symlink
entry's header is marked with the extended (PAX) format, but a symlink
entry's header is NOT — `createSymlinkHeader` rebuilds it after the `h.Format
= tar.FormatPAX` assignment, leaving the zero format; with
`preserveMetadata=false`, no entry's header is marked PAX. -/
theorem C2_format_switch :
    (∀ (a : Archive) (srcs : List SourceSpec) (isRel : Bool), a.preserveMetadata = true →
      ∀ h ∈ (a.create srcs isRel).2.1,
        (h.typeflag ≠ .symlink → h.format = .pax) ∧
        (h.typeflag = .symlink → h.format = .unknown)) ∧
    (∀ (a : Archive) (srcs : List SourceSpec) (isRel : Bool), a.preserveMetadata = false →
      ∀ h ∈ (a.create srcs isRel).2.1, h.format = .unknown) := by
  constructor
  · intro a srcs isRel hp h hm
    have := createLoop_prop
      (fun h => (h.typeflag = .symlink → h.format = .unknown) ∧
        (h.typeflag ≠ .symlink → (if a.preserveMetadata then h.format = .pax else h.format = .unknown)))
      a.root a.skipSymlinks isRel a.preserveMetadata
      (fun v h => wtaStep_format a.root a.skipSymlinks isRel a.preserveMetadata v h)
      srcs 0 [] (by intro hx hxm; simp at hxm) h hm
    refine ⟨fun hc => ?_, this.1⟩
    have := this.2 hc
    rw [hp] at this
    simpa using this
  · intro a srcs isRel hp h hm
    have := createLoop_prop
      (fun h => (h.typeflag = .symlink → h.format = .unknown) ∧
        (h.typeflag ≠ .symlink → (if a.preserveMetadata then h.format = .pax else h.format = .unknown)))
      a.root a.skipSymlinks isRel a.preserveMetadata
      (fun v h => wtaStep_format a.root a.skipSymlinks isRel a.preserveMetadata v h)
      srcs 0 [] (by intro hx hxm; simp at hxm) h hm
    by_cases hc : h.typeflag = .symlink
    · exact this.1 hc
    · have := this.2 hc
      rw [hp] at this
      simpa using this

/-- The expected header for the C2 witness run: a regular file archived with
metadata preservation on. -/
def hExpC2 : Header :=
  ⟨str "/r/f", .reg, 420, ⟨100, 0⟩, ⟨100, 0⟩, ⟨100, 0⟩, 1000, 1000, [], .pax, []⟩

/-- The archive and source of the C2 witness/counterexample runs. -/
def archC2 : Archive := Archive.newWithPreserveMetadata (str "/r") false true

/-- A regular-file visit (absolute path, stat data available). -/
def srcRegC2 : SourceSpec :=
  ⟨str "/r/f", true,
    [⟨str "/r/f", some ⟨str "f", .regular, 420, ⟨100, 0⟩, some (1000, 1000, ⟨5, 0⟩, ⟨6, 0⟩), none⟩,
      none, true, none, [], true⟩]⟩

/-- A symlink visit (absolute path, stat data available, link target `tgt`). -/
def srcSymC2 : SourceSpec :=
  ⟨str "/r/s", true,
    [⟨str "/r/s", some ⟨str "s", .symlink, 511, ⟨100, 0⟩, some (1000, 1000, ⟨5, 0⟩, ⟨6, 0⟩),
      some (str "tgt")⟩, none, true, none, [], true⟩]⟩

/-- Witness for C2: the header of the regular file archived with
preservation on is PAX-marked. -/
theorem C2_format_switch_witness : hExpC2.format = .pax :=
  (C2_format_switch.1 archC2 [srcRegC2] false rfl hExpC2 (by decide)).1 (by decide)

/-- Counterexample for C2 as stated ("`preserveMetadata=true` always
produces extended-format headers, for every entry, including symlink
entries"): archiving one symlink with `preserveMetadata=true` emits exactly
one header, whose format is the zero format, not PAX — `createSymlinkHeader`
discards the PAX marking. -/
theorem C2_counterexample :
    archC2.preserveMetadata = true ∧
    (archC2.create [srcSymC2] false).2.1.map Header.format = [.unknown] ∧
    (archC2.create [srcSymC2] false).2.1.map Header.typeflag = [.symlink] ∧
    Format.unknown ≠ Format.pax := by decide

/-! ### Claim C8: `Create` failure modes and byte accounting -/

/-- Claim C8 (amended): a source path that cannot be stat'd fails the whole
`Create` with the "source not reachable" error (the byte count accumulated
from earlier sources is reported); a payload-copy failure aborts the whole
`Create` as a wrapped walk error — but the returned byte count contains only
fully archived files: the partial bytes of the failing file are dropped (the
callback returns before executing `*written += n`).  Stated as: (1) the
stat-failure step; (2) a failing walk aborts `Create` with the wrap; (3) a
successful walk continues with its accumulated count; (4) a visit on which
the callback errors contributes nothing to the byte count. -/
theorem C8_create_failures :
    (∀ root sk isRel pres (w : Int) hs s rest, s.statOk = false →
      createLoop root sk isRel pres w hs (s :: rest) = (w, hs, some (.srcNotReachable s.spath))) ∧
    (∀ root sk isRel pres (w : Int) hs s rest w2 hs2 e, s.statOk = true →
      walkVisits root sk isRel pres w hs s.visits = (w2, hs2, some e) →
      createLoop root sk isRel pres w hs (s :: rest) = (w2, hs2, some (.walkFailed e))) ∧
    (∀ root sk isRel pres (w : Int) hs s rest w2 hs2, s.statOk = true →
      walkVisits root sk isRel pres w hs s.visits = (w2, hs2, none) →
      createLoop root sk isRel pres w hs (s :: rest) = createLoop root sk isRel pres w2 hs2 rest) ∧
    (∀ root sk isRel pres (w : Int) hs v rest nh n e,
      wtaStep root sk isRel pres v = (nh, n, some e) →
      walkVisits root sk isRel pres w hs (v :: rest) = (w, hs ++ nh, some e)) := by
  refine ⟨?_, ?_, ?_, ?_⟩
  · intro root sk isRel pres w hs s rest hst
    unfold createLoop
    rw [if_pos hst]
  · intro root sk isRel pres w hs s rest w2 hs2 e hst hwk
    unfold createLoop
    rw [if_neg (by rw [hst]; simp), hwk]
  · intro root sk isRel pres w hs s rest w2 hs2 hst hwk
    conv_lhs => rw [createLoop]
    rw [if_neg (by rw [hst]; simp), hwk]
  · intro root sk isRel pres w hs v rest nh n e hstep
    unfold walkVisits
    rw [hstep]

/-- Witness for C8: a stat failure on the second source reports the 2 bytes
accumulated from the sources before it. -/
theorem C8_create_failures_witness :
    createLoop (str "/r") false false false 2 [] [⟨str "s", false, []⟩]
      = (2, [], some (.srcNotReachable (str "s"))) :=
  C8_create_failures.1 (str "/r") false false false 2 [] ⟨str "s", false, []⟩ [] rfl

/-- Counterexample for C8 as stated ("with the partial byte count already
written... including the bytes of the partially copied file"): one source
with a fully archived 5-byte file followed by a file whose copy fails after
3 of its 5 bytes: `Create` aborts with byte count 5 — the 3 partially
copied bytes are NOT included (the claim demands 8). -/
theorem C8_counterexample :
    ((Archive.new (str "/r") false).create
      [⟨str "a", true,
        [⟨str "a", some ⟨str "a", .regular, 420, timeZero, none, none⟩,
          none, true, none, [1, 2, 3, 4, 5], true⟩,
         ⟨str "b", some ⟨str "b", .regular, 420, timeZero, none, none⟩,
          none, true, some 3, [9, 9, 9, 9, 9], true⟩]⟩] true).1 = 5 ∧
    ((Archive.new (str "/r") false).create
      [⟨str "a", true,
        [⟨str "a", some ⟨str "a", .regular, 420, timeZero, none, none⟩,
          none, true, none, [1, 2, 3, 4, 5], true⟩,
         ⟨str "b", some ⟨str "b", .regular, 420, timeZero, none, none⟩,
          none, true, some 3, [9, 9, 9, 9, 9], true⟩]⟩] true).2.2
      = some (.walkFailed (.writeFileFailed (.copyFailed (str "b")))) ∧
    (5 : Int) ≠ 5 + 3 := by decide

/-! ### Claim C3: deferred directory metadata -/

lemma selPass_perm (a : Str) (l : List Str) :
    ((selPass a l).1 :: (selPass a l).2).Perm (a :: l) := by
  induction l generalizing a with
  | nil => simp [selPass]
  | cons b rest ih =>
    by_cases hc : a.length < b.length
    · simp only [selPass, if_pos hc]
      exact (List.Perm.swap a _ _).trans ((ih b).cons a)
    · simp only [selPass, if_neg hc]
      exact ((List.Perm.swap b _ _).trans ((ih a).cons b)).trans (List.Perm.swap a b rest)

lemma selPass_max (a : Str) (l : List Str) :
    ∀ x ∈ a :: l, x.length ≤ (selPass a l).1.length := by
  induction l generalizing a with
  | nil =>
    intro x hx
    rcases List.mem_cons.mp hx with hx | hx
    · subst hx; simp [selPass]
    · simp at hx
  | cons b rest ih =>
    intro x hx
    by_cases hc : a.length < b.length
    · simp only [selPass, if_pos hc]
      rcases List.mem_cons.mp hx with hx | hx
      · subst hx
        exact le_of_lt (lt_of_lt_of_le hc (ih b b (List.mem_cons_self b rest)))
      · exact ih b x hx
    · simp only [selPass, if_neg hc]
      push_neg at hc
      rcases List.mem_cons.mp hx with hx | hx
      · subst hx
        exact ih x x (List.mem_cons_self x rest)
      · rcases List.mem_cons.mp hx with hx | hx
        · subst hx
          exact le_trans hc (ih a a (List.mem_cons_self a rest))
        · exact ih a x (List.mem_cons_of_mem a hx)

lemma selSort_perm (l : List Str) : (selSort l).Perm l := by
  induction l using selSort.induct with
  | case1 => simp [selSort]
  | case2 a rest p ih =>
    rw [selSort]
    have ih2 : (selSort (selPass a rest).2).Perm (selPass a rest).2 := by simpa using ih
    exact (ih2.cons _).trans (selPass_perm a rest)

lemma selSort_sorted (l : List Str) :
    List.Pairwise (fun x y => y.length ≤ x.length) (selSort l) := by
  induction l using selSort.induct with
  | case1 => simp [selSort]
  | case2 a rest p ih =>
    rw [selSort]
    refine List.Pairwise.cons ?_ (by simpa using ih)
    intro y hy
    have hy2 : y ∈ (selPass a rest).2 := by
      have hperm := selSort_perm (selPass a rest).2
      exact hperm.mem_iff.mp (by simpa using hy)
    have hy3 : y ∈ (selPass a rest).1 :: (selPass a rest).2 := List.mem_cons_of_mem _ hy2
    exact selPass_max a rest y ((selPass_perm a rest).mem_iff.mp hy3)

/-- The length sort is a permutation and, in its output, a directory never
precedes (is never applied before) a directory nested strictly inside it:
nesting forces a strictly greater length, and the output is
length-descending. -/
lemma selSort_no_nested (l : List Str) :
    List.Pairwise (fun x y => ¬ (x ++ ['/']) <+: y) (selSort l) := by
  refine (selSort_sorted l).imp ?_
  intro x y hxy hpre
  have hlen := hpre.length_le
  simp at hlen
  omega

lemma alInsert_keys_mem {α : Type} (l : List (Str × α)) (p q : Str) (n : α) :
    q ∈ (alInsert l p n).map Prod.fst ↔ q ∈ l.map Prod.fst ∨ q = p := by
  induction l with
  | nil =>
    simp only [alInsert, List.map_cons, List.map_nil, List.mem_singleton, List.not_mem_nil,
      false_or]
  | cons x rest ih =>
    obtain ⟨xk, xv⟩ := x
    by_cases hx : xk = p
    · subst hx
      simp only [alInsert, eq_self_iff_true, if_true, List.map_cons, List.mem_cons]
      tauto
    · simp only [alInsert, hx, if_false, List.map_cons, List.mem_cons, ih]
      tauto

lemma alInsert_keys_nodup {α : Type} (l : List (Str × α)) (p : Str) (n : α)
    (h : (l.map Prod.fst).Nodup) : ((alInsert l p n).map Prod.fst).Nodup := by
  induction l with
  | nil =>
    simp only [alInsert, List.map_cons, List.map_nil]
    exact List.nodup_singleton p
  | cons x rest ih =>
    obtain ⟨xk, xv⟩ := x
    rw [List.map_cons, List.nodup_cons] at h
    by_cases hx : xk = p
    · subst hx
      simp only [alInsert, eq_self_iff_true, if_true, List.map_cons, List.nodup_cons]
      exact h
    · simp only [alInsert, hx, if_false, List.map_cons, List.nodup_cons]
      refine ⟨?_, ih h.2⟩
      intro hc
      rcases (alInsert_keys_mem rest p xk n).mp hc with hc | hc
      · exact h.1 hc
      · exact hx hc

/-- The invariant tying the `dirMetadata` map to the directory entries seen:
its keys are exactly the directory-entry targets, each with a single
binding. -/
def PendInv (st : EState) : Prop :=
  (st.pending.map Prod.fst).Nodup ∧
  ∀ p, p ∈ st.pending.map Prod.fst ↔ p ∈ st.dirSeen

lemma extractEntry_pendInv (pres : Bool) (dst : Str) (o : FatalOracle) (mo : MetaOracle)
    (st : EState) (h : Header) (st2 : EState) (r : Option (Int × Err))
    (hstep : extractEntry pres dst o mo st h = (st2, r)) (hinv : PendInv st) : PendInv st2 := by
  simp only [extractEntry] at hstep
  all_goals try (split at hstep)
  all_goals try (split at hstep)
  all_goals try (split at hstep)
  all_goals try (split at hstep)
  all_goals try (split at hstep)
  all_goals injection hstep with h1 h2
  all_goals subst h1
  all_goals
    first
    | exact hinv
    | (refine ⟨alInsert_keys_nodup _ _ _ hinv.1, ?_⟩
       intro p
       rw [alInsert_keys_mem]
       rw [hinv.2 p]
       simp)

lemma extractLoop_pendInv (pres : Bool) (dst : Str) (o : FatalOracle) (mo : MetaOracle) :
    ∀ (evs : List (Option Header)) (st : EState) (t : Terminal)
      (res : Int × Option Err × EState),
      extractLoop pres dst o mo st evs t = res → PendInv st → PendInv res.2.2 := by
  intro evs
  induction evs with
  | nil =>
    intro st t res hrun hinv
    cases t with
    | eof =>
      simp only [extractLoop] at hrun
      by_cases hp : pres = true
      · rw [if_pos hp] at hrun
        subst hrun
        exact hinv
      · rw [if_neg hp] at hrun
        subst hrun
        exact hinv
    | readErr =>
      simp only [extractLoop] at hrun
      subst hrun
      exact hinv
  | cons ev rest ih =>
    intro st t res hrun hinv
    cases ev with
    | none =>
      simp only [extractLoop] at hrun
      exact ih st t res hrun hinv
    | some h =>
      simp only [extractLoop] at hrun
      rcases hse : extractEntry pres dst o mo st h with ⟨st2, r⟩
      rw [hse] at hrun
      have hinv2 := extractEntry_pendInv pres dst o mo st h st2 r hse hinv
      cases r with
      | none => exact ih st2 t res hrun hinv2
      | some p =>
        obtain ⟨w, e⟩ := p
        subst hrun
        exact hinv2

/-- Claim C3 (confirmed): in an `Extract` with metadata preservation that
reaches natural end-of-stream, (a) the pending map holds exactly one record
per directory-entry target encountered; and (b) whatever enumeration order
the Go map iteration produces, the length sort applies every pending record
(it permutes the enumeration) in an order in which a directory is never
applied before a directory nested strictly inside it (deepest first: nesting
implies strictly greater length, and the sort is length-descending). -/
theorem C3_deferred_dir_metadata
    (a : Archive) (dst : Str) (o : FatalOracle) (mo : MetaOracle) (fs : FS)
    (evs : List (Option Header)) (res : Int × Option Err × EState)
    (hpres : a.preserveMetadata = true)
    (hrun : a.extract dst o mo fs evs .eof = res) (hok : res.2.1 = none) :
    ((res.2.2.pending.map Prod.fst).Nodup ∧
      (∀ p, p ∈ res.2.2.pending.map Prod.fst ↔ p ∈ res.2.2.dirSeen)) ∧
    (∀ ds : List Str, ds.Perm (res.2.2.pending.map Prod.fst) →
      (selSort ds).Perm ds ∧
      List.Pairwise (fun x y => ¬ (x ++ ['/']) <+: y) (selSort ds)) := by
  refine ⟨?_, fun ds _ => ⟨selSort_perm ds, selSort_no_nested ds⟩⟩
  have hinv := extractLoop_pendInv a.preserveMetadata dst o mo evs ⟨0, fs, [], []⟩ .eof res
    hrun ⟨by simp, by simp⟩
  exact ⟨hinv.1, hinv.2⟩

/-- The C3 witness run: two nested absolute-named directories with distinct
metadata, preservation on. -/
def evsC3 : List (Option Header) :=
  [some ⟨str "/x/a", .dir, 493, ⟨50, 0⟩, ⟨51, 0⟩, ⟨52, 0⟩, 1, 1, [], .pax, []⟩,
   some ⟨str "/x/a/b", .dir, 448, ⟨60, 0⟩, ⟨61, 0⟩, ⟨62, 0⟩, 2, 2, [], .pax, []⟩]

/-- Witness for C3 at the concrete two-directory run: the pending keys are
nodup and match the directories seen, and for the enumeration
`[/x/a, /x/a/b]` the sort applies the nested `/x/a/b` first. -/
theorem C3_deferred_dir_metadata_witness :
    ((((Archive.newWithPreserveMetadata (str "/x") false true).extract (str "/d") oAllOk moAllOk
        [] evsC3 .eof).2.2.pending.map Prod.fst).Nodup ∧
      (str "/x/a" ∈ (((Archive.newWithPreserveMetadata (str "/x") false true).extract (str "/d")
        oAllOk moAllOk [] evsC3 .eof).2.2.pending.map Prod.fst) ↔
       str "/x/a" ∈ ((Archive.newWithPreserveMetadata (str "/x") false true).extract (str "/d")
        oAllOk moAllOk [] evsC3 .eof).2.2.dirSeen)) ∧
    ((selSort [str "/x/a", str "/x/a/b"]).Perm [str "/x/a", str "/x/a/b"] ∧
      List.Pairwise (fun x y => ¬ (x ++ ['/']) <+: y) (selSort [str "/x/a", str "/x/a/b"])) := by
  have H := C3_deferred_dir_metadata (Archive.newWithPreserveMetadata (str "/x") false true)
    (str "/d") oAllOk moAllOk [] evsC3 _ rfl rfl (by decide)
  exact ⟨⟨H.1.1, H.1.2 (str "/x/a")⟩, H.2 [str "/x/a", str "/x/a/b"] (by decide)⟩

/-! ### Claim C6: metadata-call failures do not affect `Extract`'s result

Two filesystems are `MetaEqFS`-related when they bind the same paths to
nodes with the same content; only the metadata may differ.  Every
metadata-application call maps a filesystem to a `MetaEqFS`-related one, and
the extraction loop is a bisimulation for the relation, for any two metadata
oracles. -/

/-- The content-only view of a filesystem: paths and node cores. -/
def contentView (fs : FS) : List (Str × Core) := fs.map (fun pn => (pn.1, pn.2.core))

/-- Same paths, same cores; metadata free. -/
def MetaEqFS (a b : FS) : Prop :=
  List.Forall₂ (fun x y => x.1 = y.1 ∧ x.2.core = y.2.core) a b

lemma metaEqFS_refl (a : FS) : MetaEqFS a a := by
  induction a with
  | nil => exact List.Forall₂.nil
  | cons x rest ih => exact List.Forall₂.cons ⟨rfl, rfl⟩ ih

lemma metaEqFS_symm {a b : FS} (h : MetaEqFS a b) : MetaEqFS b a := by
  induction h with
  | nil => exact .nil
  | cons hxy _ ih => exact .cons ⟨hxy.1.symm, hxy.2.symm⟩ ih

lemma metaEqFS_trans {a b c : FS} (h1 : MetaEqFS a b) (h2 : MetaEqFS b c) : MetaEqFS a c := by
  induction h1 generalizing c with
  | nil => cases h2; exact .nil
  | cons hxy _ ih =>
    cases h2 with
    | cons hyz hrest2 => exact .cons ⟨hxy.1.trans hyz.1, hxy.2.trans hyz.2⟩ (ih hrest2)

lemma metaEqFS_contentView {a b : FS} (h : MetaEqFS a b) : contentView a = contentView b := by
  induction h with
  | nil => rfl
  | cons hxy _ ih =>
    simp only [contentView, List.map_cons] at ih ⊢
    rw [ih, hxy.1, hxy.2]

lemma lookup_core_rel {a b : FS} (h : MetaEqFS a b) (p : Str) :
    (alLookup a p).map Node.core = (alLookup b p).map Node.core := by
  induction h with
  | nil => rfl
  | @cons x y l1 l2 hxy _ ih =>
    obtain ⟨xk, xv⟩ := x
    obtain ⟨yk, yv⟩ := y
    obtain ⟨hk, hc⟩ := hxy
    simp only at hk hc
    subst hk
    simp only [alLookup]
    by_cases hq : xk = p
    · rw [if_pos hq, if_pos hq]
      simp [hc]
    · rw [if_neg hq, if_neg hq]
      exact ih

lemma lookup_none_rel {a b : FS} (h : MetaEqFS a b) (p : Str)
    (hla : alLookup a p = none) : alLookup b p = none := by
  have hlk := lookup_core_rel h p
  rw [hla] at hlk
  exact Option.map_eq_none'.mp hlk.symm

lemma lookup_some_rel {a b : FS} (h : MetaEqFS a b) (p : Str) (n : Node)
    (hla : alLookup a p = some n) : ∃ n2, alLookup b p = some n2 ∧ n2.core = n.core := by
  have hlk := lookup_core_rel h p
  rw [hla] at hlk
  cases hlb : alLookup b p with
  | none => rw [hlb] at hlk; simp at hlk
  | some n2 =>
    rw [hlb] at hlk
    simp only [Option.map_some', Option.some.injEq] at hlk
    exact ⟨n2, rfl, hlk.symm⟩

lemma insert_rel {a b : FS} (h : MetaEqFS a b) (p : Str) {n1 n2 : Node}
    (hn : n1.core = n2.core) : MetaEqFS (alInsert a p n1) (alInsert b p n2) := by
  induction h with
  | nil => exact .cons ⟨rfl, hn⟩ .nil
  | @cons x y l1 l2 hxy hrest ih =>
    obtain ⟨xk, xv⟩ := x
    obtain ⟨yk, yv⟩ := y
    obtain ⟨hk, hc⟩ := hxy
    simp only at hk hc
    subst hk
    simp only [alInsert]
    by_cases hq : xk = p
    · rw [if_pos hq, if_pos hq]
      exact .cons ⟨rfl, hn⟩ hrest
    · rw [if_neg hq, if_neg hq]
      exact .cons ⟨rfl, hc⟩ ih

lemma erase_rel {a b : FS} (h : MetaEqFS a b) (p : Str) :
    MetaEqFS (alErase a p) (alErase b p) := by
  induction h with
  | nil => exact .nil
  | @cons x y l1 l2 hxy hrest ih =>
    obtain ⟨xk, xv⟩ := x
    obtain ⟨yk, yv⟩ := y
    obtain ⟨hk, hc⟩ := hxy
    simp only at hk hc
    subst hk
    simp only [alErase]
    by_cases hq : xk = p
    · rw [if_pos hq, if_pos hq]
      exact hrest
    · rw [if_neg hq, if_neg hq]
      exact .cons ⟨rfl, hc⟩ ih

lemma insert_existing_metaEq : ∀ (a : FS) (p : Str) (n n2 : Node),
    alLookup a p = some n → n2.core = n.core → MetaEqFS (alInsert a p n2) a := by
  intro a
  induction a with
  | nil =>
    intro p n n2 hl _
    exact absurd hl (by simp [alLookup])
  | cons x rest ih =>
    intro p n n2 hl hc
    obtain ⟨xk, xv⟩ := x
    simp only [alLookup] at hl
    by_cases hq : xk = p
    · rw [if_pos hq] at hl
      injection hl with hl
      subst hl
      simp only [alInsert]
      rw [if_pos hq]
      exact .cons ⟨rfl, hc⟩ (metaEqFS_refl rest)
    · rw [if_neg hq] at hl
      simp only [alInsert]
      rw [if_neg hq]
      exact .cons ⟨rfl, rfl⟩ (ih p n n2 hl hc)

lemma updMeta_metaEq (a : FS) (p : Str) (f : Meta → Meta) : MetaEqFS (updMeta a p f) a := by
  unfold updMeta
  cases hl : alLookup a p with
  | none => exact metaEqFS_refl a
  | some n => exact insert_existing_metaEq a p n ⟨n.core, f n.meta⟩ hl rfl

lemma chmodIf_metaEq (mo : MetaOracle) (fs : FS) (p : Str) (m : Int) :
    MetaEqFS (chmodIf mo fs p m) fs := by
  unfold chmodIf
  split
  · exact updMeta_metaEq ..
  · exact metaEqFS_refl fs

lemma chtimesIf_metaEq (mo : MetaOracle) (fs : FS) (p : Str) (a m : GoTime) :
    MetaEqFS (chtimesIf mo fs p a m) fs := by
  unfold chtimesIf
  split
  · exact updMeta_metaEq ..
  · exact metaEqFS_refl fs

lemma chownIf_metaEq (mo : MetaOracle) (fs : FS) (p : Str) (u g : Int) :
    MetaEqFS (chownIf mo fs p u g) fs := by
  unfold chownIf
  split
  · exact updMeta_metaEq ..
  · exact metaEqFS_refl fs

lemma lchownIf_metaEq (mo : MetaOracle) (fs : FS) (p : Str) (u g : Int) :
    MetaEqFS (lchownIf mo fs p u g) fs := by
  unfold lchownIf
  split
  · exact updMeta_metaEq ..
  · exact metaEqFS_refl fs

lemma applyFileMeta_metaEq (mo : MetaOracle) (fs : FS) (t : Str) (h : Header) :
    MetaEqFS (applyFileMeta mo fs t h) fs := by
  unfold applyFileMeta
  simp only [goosWindows, Bool.false_eq_true, if_false]
  exact metaEqFS_trans (chownIf_metaEq ..)
    (metaEqFS_trans (chtimesIf_metaEq ..) (chmodIf_metaEq ..))

lemma applyDirMeta_metaEq (mo : MetaOracle) (pending : List (Str × Meta)) (fs : FS) (d : Str) :
    MetaEqFS (applyDirMeta mo pending fs d) fs := by
  unfold applyDirMeta
  cases alLookup pending d with
  | none => exact metaEqFS_refl fs
  | some m =>
    simp only [goosWindows, Bool.false_eq_true, if_false]
    exact metaEqFS_trans (chownIf_metaEq ..)
      (metaEqFS_trans (chtimesIf_metaEq ..) (chmodIf_metaEq ..))

lemma foldl_applyDirMeta_metaEq (mo : MetaOracle) (pending : List (Str × Meta)) :
    ∀ (dirs : List Str) (fs : FS),
      MetaEqFS (dirs.foldl (applyDirMeta mo pending) fs) fs := by
  intro dirs
  induction dirs with
  | nil => intro fs; exact metaEqFS_refl fs
  | cons d rest ih =>
    intro fs
    simp only [List.foldl_cons]
    exact metaEqFS_trans (ih _) (applyDirMeta_metaEq ..)

lemma mkdirAllFS_rel {a b : FS} (h : MetaEqFS a b) (p : Str) (perm : Int) :
    MetaEqFS (mkdirAllFS a p perm) (mkdirAllFS b p perm) := by
  unfold mkdirAllFS
  generalize ancPrefixes p = ps
  induction ps generalizing a b with
  | nil => exact h
  | cons q rest ih =>
    simp only [List.foldl_cons]
    cases hla : alLookup a q with
    | none =>
      have hlb := lookup_none_rel h q hla
      simp only [hla, hlb]
      exact ih (insert_rel h q rfl)
    | some n =>
      obtain ⟨n2, hlb, _⟩ := lookup_some_rel h q n hla
      simp only [hla, hlb]
      exact ih h

lemma unlinkFS_rel {a b : FS} (h : MetaEqFS a b) (o : FatalOracle) (p : Str) :
    (unlinkFS o a p).2 = (unlinkFS o b p).2 ∧ MetaEqFS (unlinkFS o a p).1 (unlinkFS o b p).1 := by
  unfold unlinkFS
  cases hla : alLookup a p with
  | none =>
    have hlb := lookup_none_rel h p hla
    simp only [hla, hlb]
    exact ⟨by trivial, h⟩
  | some n =>
    obtain ⟨n2, hlb, _⟩ := lookup_some_rel h p n hla
    simp only [hla, hlb]
    by_cases hr : o.removeOk p
    · simp only [if_pos hr]
      exact ⟨by trivial, erase_rel h p⟩
    · simp only [if_neg hr]
      exact ⟨by trivial, h⟩

lemma openRW_rel {a b : FS} (h : MetaEqFS a b) (t : Str) (m : Int) :
    (openRW a t m).map Prod.fst = (openRW b t m).map Prod.fst := by
  unfold openRW
  cases hla : alLookup a t with
  | none =>
    have hlb := lookup_none_rel h t hla
    simp only [hla, hlb]
  | some n =>
    obtain ⟨n2, hlb, hc⟩ := lookup_some_rel h t n hla
    simp only [hla, hlb, hc]
    cases n.core <;> simp

lemma metaEq_if_apply (pres : Bool) (mo1 mo2 : MetaOracle) {f1 f2 : FS}
    (hf : MetaEqFS f1 f2) (t : Str) (hd : Header) :
    MetaEqFS (if pres then applyFileMeta mo1 f1 t hd else f1)
      (if pres then applyFileMeta mo2 f2 t hd else f2) := by
  cases pres with
  | false => simpa using hf
  | true =>
    simp only [if_true]
    exact metaEqFS_trans (applyFileMeta_metaEq ..)
      (metaEqFS_trans hf (metaEqFS_symm (applyFileMeta_metaEq ..)))

lemma extractRegularFS_rel {a b : FS} (h : MetaEqFS a b) (pres : Bool) (o : FatalOracle)
    (mo1 mo2 : MetaOracle) (hd : Header) (t : Str) :
    (extractRegularFS pres o mo1 a hd t).2.1 = (extractRegularFS pres o mo2 b hd t).2.1 ∧
    (extractRegularFS pres o mo1 a hd t).2.2 = (extractRegularFS pres o mo2 b hd t).2.2 ∧
    MetaEqFS (extractRegularFS pres o mo1 a hd t).1 (extractRegularFS pres o mo2 b hd t).1 := by
  unfold extractRegularFS
  by_cases ho : o.openOk t = false
  · rw [if_pos ho, if_pos ho]
    exact ⟨rfl, rfl, h⟩
  · rw [if_neg ho, if_neg ho]
    have hop := openRW_rel h t hd.mode
    cases hoa : openRW a t hd.mode with
    | none =>
      rw [hoa] at hop
      have hob : openRW b t hd.mode = none := Option.map_eq_none'.mp hop.symm
      simp only [hoa, hob]
      exact ⟨by trivial, by trivial, h⟩
    | some cm =>
      obtain ⟨c, ma⟩ := cm
      rw [hoa] at hop
      cases hob : openRW b t hd.mode with
      | none => rw [hob] at hop; simp at hop
      | some cm2 =>
        obtain ⟨c2, mb⟩ := cm2
        rw [hob] at hop
        simp only [Option.map_some', Option.some.injEq] at hop
        have hcc : c = c2 := hop
        subst hcc
        simp only [hoa, hob]
        cases hcf : o.copyFail t with
        | some k =>
          simp only [hcf]
          refine ⟨by trivial, by trivial, ?_⟩
          exact insert_rel h t (by rfl)
        | none =>
          simp only [hcf]
          refine ⟨by trivial, by trivial, ?_⟩
          exact metaEq_if_apply pres mo1 mo2 (insert_rel h t (by rfl)) t hd

lemma extractSymlinkFS_rel {a b : FS} (h : MetaEqFS a b) (pres : Bool) (o : FatalOracle)
    (mo1 mo2 : MetaOracle) (hd : Header) (t : Str) :
    (extractSymlinkFS pres o mo1 a hd t).2 = (extractSymlinkFS pres o mo2 b hd t).2 ∧
    MetaEqFS (extractSymlinkFS pres o mo1 a hd t).1 (extractSymlinkFS pres o mo2 b hd t).1 := by
  unfold extractSymlinkFS
  obtain ⟨he, hfs⟩ := unlinkFS_rel h o t
  rcases hu1 : unlinkFS o a t with ⟨fa, ea⟩
  rcases hu2 : unlinkFS o b t with ⟨fb, eb⟩
  rw [hu1, hu2] at he hfs
  simp only at he hfs
  subst he
  simp only [hu1, hu2]
  cases ea with
  | some e => exact ⟨by trivial, hfs⟩
  | none =>
    simp only []
    by_cases hs : o.symlinkOk t = false
    · rw [if_pos hs, if_pos hs]
      exact ⟨by trivial, hfs⟩
    · rw [if_neg hs, if_neg hs]
      refine ⟨by trivial, ?_⟩
      have hins : MetaEqFS (alInsert fa t ⟨.symlink hd.linkname, freshLinkMeta⟩)
          (alInsert fb t ⟨.symlink hd.linkname, freshLinkMeta⟩) := insert_rel hfs t rfl
      cases hb : (pres && !goosWindows) with
      | false => simpa using hins
      | true =>
        simp only [if_true]
        exact metaEqFS_trans (lchownIf_metaEq ..)
          (metaEqFS_trans hins (metaEqFS_symm (lchownIf_metaEq ..)))

lemma extractLinkFS_rel {a b : FS} (h : MetaEqFS a b) (pres : Bool) (o : FatalOracle)
    (mo1 mo2 : MetaOracle) (hd : Header) (t : Str) :
    (extractLinkFS pres o mo1 a hd t).2 = (extractLinkFS pres o mo2 b hd t).2 ∧
    MetaEqFS (extractLinkFS pres o mo1 a hd t).1 (extractLinkFS pres o mo2 b hd t).1 := by
  unfold extractLinkFS
  obtain ⟨he, hfs⟩ := unlinkFS_rel h o t
  rcases hu1 : unlinkFS o a t with ⟨fa, ea⟩
  rcases hu2 : unlinkFS o b t with ⟨fb, eb⟩
  rw [hu1, hu2] at he hfs
  simp only at he hfs
  subst he
  simp only [hu1, hu2]
  cases ea with
  | some e => exact ⟨by trivial, hfs⟩
  | none =>
    simp only []
    cases hla : alLookup fa hd.linkname with
    | none =>
      have hlb := lookup_none_rel hfs hd.linkname hla
      simp only [hla, hlb]
      exact ⟨by trivial, hfs⟩
    | some n =>
      obtain ⟨n2, hlb, hc⟩ := lookup_some_rel hfs hd.linkname n hla
      simp only [hla, hlb]
      by_cases hl : o.linkOk t = false
      · rw [if_pos hl, if_pos hl]
        exact ⟨by trivial, hfs⟩
      · rw [if_neg hl, if_neg hl]
        refine ⟨by trivial, ?_⟩
        exact metaEq_if_apply pres mo1 mo2 (insert_rel hfs t hc.symm) t hd

lemma extractDirFS_rel {a b : FS} (h : MetaEqFS a b) (o : FatalOracle) (hd : Header) (t : Str) :
    (extractDirFS o a hd t).2 = (extractDirFS o b hd t).2 ∧
    MetaEqFS (extractDirFS o a hd t).1 (extractDirFS o b hd t).1 := by
  unfold extractDirFS
  by_cases hm : o.mkdirOk t
  · rw [if_pos hm, if_pos hm]
    exact ⟨rfl, mkdirAllFS_rel h t hd.mode⟩
  · rw [if_neg hm, if_neg hm]
    exact ⟨rfl, h⟩

set_option maxHeartbeats 2000000 in
/-- One `Extract` loop iteration is a bisimulation for `MetaEqFS`, for any
two metadata oracles: the control result, byte count, pending map and
directory trace agree, and the filesystems stay related. -/
lemma extractEntry_rel (pres : Bool) (dst : Str) (o : FatalOracle) (mo1 mo2 : MetaOracle)
    (w : Int) (pd : List (Str × Meta)) (ds : List Str) {f1 f2 : FS} (hf : MetaEqFS f1 f2)
    (hd : Header) :
    (extractEntry pres dst o mo1 ⟨w, f1, pd, ds⟩ hd).2 =
      (extractEntry pres dst o mo2 ⟨w, f2, pd, ds⟩ hd).2 ∧
    (extractEntry pres dst o mo1 ⟨w, f1, pd, ds⟩ hd).1.written =
      (extractEntry pres dst o mo2 ⟨w, f2, pd, ds⟩ hd).1.written ∧
    (extractEntry pres dst o mo1 ⟨w, f1, pd, ds⟩ hd).1.pending =
      (extractEntry pres dst o mo2 ⟨w, f2, pd, ds⟩ hd).1.pending ∧
    (extractEntry pres dst o mo1 ⟨w, f1, pd, ds⟩ hd).1.dirSeen =
      (extractEntry pres dst o mo2 ⟨w, f2, pd, ds⟩ hd).1.dirSeen ∧
    MetaEqFS (extractEntry pres dst o mo1 ⟨w, f1, pd, ds⟩ hd).1.fs
      (extractEntry pres dst o mo2 ⟨w, f2, pd, ds⟩ hd).1.fs := by
  unfold extractEntry
  cases ht : extractTarget dst hd.name with
  | none =>
    simp only [ht]
    exact ⟨by trivial, by trivial, by trivial, by trivial, hf⟩
  | some target =>
    simp only [ht]
    by_cases hmk : o.mkdirOk (goDir target) = false
    · rw [if_pos hmk, if_pos hmk]
      exact ⟨by trivial, by trivial, by trivial, by trivial, hf⟩
    · rw [if_neg hmk, if_neg hmk]
      try simp only []
      have hmk1 : MetaEqFS (mkdirAllFS f1 (goDir target) defaultDirPerm)
          (mkdirAllFS f2 (goDir target) defaultDirPerm) := mkdirAllFS_rel hf _ _
      cases hfl : hd.typeflag with
      | dir =>
        try simp only [hfl]
        by_cases hp : pres = true
        · rw [if_pos hp, if_pos hp]
          by_cases hmt : o.mkdirOk target
          · rw [if_pos hmt, if_pos hmt]
            exact ⟨by trivial, by trivial, by trivial, by trivial, mkdirAllFS_rel hmk1 _ _⟩
          · rw [if_neg hmt, if_neg hmt]
            exact ⟨by trivial, by trivial, by trivial, by trivial, hmk1⟩
        · rw [if_neg hp, if_neg hp]
          have hrel := extractDirFS_rel hmk1 o hd target
          rcases hd1 : extractDirFS o (mkdirAllFS f1 (goDir target) defaultDirPerm) hd target
            with ⟨fsa, ea⟩
          rcases hd2 : extractDirFS o (mkdirAllFS f2 (goDir target) defaultDirPerm) hd target
            with ⟨fsb, eb⟩
          rw [hd1, hd2] at hrel
          obtain ⟨hee, hff⟩ := hrel
          have hee2 : ea = eb := hee
          subst hee2
          try simp only [hd1, hd2]
          cases ea with
          | none => exact ⟨by trivial, by trivial, by trivial, by trivial, hff⟩
          | some e => exact ⟨by trivial, by trivial, by trivial, by trivial, hff⟩
      | reg =>
        try simp only [hfl]
        have hrel := extractRegularFS_rel hmk1 pres o mo1 mo2 hd target
        rcases hr1 : extractRegularFS pres o mo1 (mkdirAllFS f1 (goDir target) defaultDirPerm)
          hd target with ⟨fsa, na, ea⟩
        rcases hr2 : extractRegularFS pres o mo2 (mkdirAllFS f2 (goDir target) defaultDirPerm)
          hd target with ⟨fsb, nb, eb⟩
        rw [hr1, hr2] at hrel
        obtain ⟨hnn, hee, hff⟩ := hrel
        have hnn2 : na = nb := hnn
        have hee2 : ea = eb := hee
        subst hnn2
        subst hee2
        try simp only [hr1, hr2]
        cases ea with
        | none => exact ⟨by trivial, by trivial, by trivial, by trivial, hff⟩
        | some e => exact ⟨by trivial, by trivial, by trivial, by trivial, hff⟩
      | regA =>
        try simp only [hfl]
        have hrel := extractRegularFS_rel hmk1 pres o mo1 mo2 hd target
        rcases hr1 : extractRegularFS pres o mo1 (mkdirAllFS f1 (goDir target) defaultDirPerm)
          hd target with ⟨fsa, na, ea⟩
        rcases hr2 : extractRegularFS pres o mo2 (mkdirAllFS f2 (goDir target) defaultDirPerm)
          hd target with ⟨fsb, nb, eb⟩
        rw [hr1, hr2] at hrel
        obtain ⟨hnn, hee, hff⟩ := hrel
        have hnn2 : na = nb := hnn
        have hee2 : ea = eb := hee
        subst hnn2
        subst hee2
        try simp only [hr1, hr2]
        cases ea with
        | none => exact ⟨by trivial, by trivial, by trivial, by trivial, hff⟩
        | some e => exact ⟨by trivial, by trivial, by trivial, by trivial, hff⟩
      | chr =>
        try simp only [hfl]
        have hrel := extractRegularFS_rel hmk1 pres o mo1 mo2 hd target
        rcases hr1 : extractRegularFS pres o mo1 (mkdirAllFS f1 (goDir target) defaultDirPerm)
          hd target with ⟨fsa, na, ea⟩
        rcases hr2 : extractRegularFS pres o mo2 (mkdirAllFS f2 (goDir target) defaultDirPerm)
          hd target with ⟨fsb, nb, eb⟩
        rw [hr1, hr2] at hrel
        obtain ⟨hnn, hee, hff⟩ := hrel
        have hnn2 : na = nb := hnn
        have hee2 : ea = eb := hee
        subst hnn2
        subst hee2
        try simp only [hr1, hr2]
        cases ea with
        | none => exact ⟨by trivial, by trivial, by trivial, by trivial, hff⟩
        | some e => exact ⟨by trivial, by trivial, by trivial, by trivial, hff⟩
      | blk =>
        try simp only [hfl]
        have hrel := extractRegularFS_rel hmk1 pres o mo1 mo2 hd target
        rcases hr1 : extractRegularFS pres o mo1 (mkdirAllFS f1 (goDir target) defaultDirPerm)
          hd target with ⟨fsa, na, ea⟩
        rcases hr2 : extractRegularFS pres o mo2 (mkdirAllFS f2 (goDir target) defaultDirPerm)
          hd target with ⟨fsb, nb, eb⟩
        rw [hr1, hr2] at hrel
        obtain ⟨hnn, hee, hff⟩ := hrel
        have hnn2 : na = nb := hnn
        have hee2 : ea = eb := hee
        subst hnn2
        subst hee2
        try simp only [hr1, hr2]
        cases ea with
        | none => exact ⟨by trivial, by trivial, by trivial, by trivial, hff⟩
        | some e => exact ⟨by trivial, by trivial, by trivial, by trivial, hff⟩
      | fifo =>
        try simp only [hfl]
        have hrel := extractRegularFS_rel hmk1 pres o mo1 mo2 hd target
        rcases hr1 : extractRegularFS pres o mo1 (mkdirAllFS f1 (goDir target) defaultDirPerm)
          hd target with ⟨fsa, na, ea⟩
        rcases hr2 : extractRegularFS pres o mo2 (mkdirAllFS f2 (goDir target) defaultDirPerm)
          hd target with ⟨fsb, nb, eb⟩
        rw [hr1, hr2] at hrel
        obtain ⟨hnn, hee, hff⟩ := hrel
        have hnn2 : na = nb := hnn
        have hee2 : ea = eb := hee
        subst hnn2
        subst hee2
        try simp only [hr1, hr2]
        cases ea with
        | none => exact ⟨by trivial, by trivial, by trivial, by trivial, hff⟩
        | some e => exact ⟨by trivial, by trivial, by trivial, by trivial, hff⟩
      | symlink =>
        try simp only [hfl]
        have hrel := extractSymlinkFS_rel hmk1 pres o mo1 mo2 hd target
        rcases hs1 : extractSymlinkFS pres o mo1 (mkdirAllFS f1 (goDir target) defaultDirPerm)
          hd target with ⟨fsa, ea⟩
        rcases hs2 : extractSymlinkFS pres o mo2 (mkdirAllFS f2 (goDir target) defaultDirPerm)
          hd target with ⟨fsb, eb⟩
        rw [hs1, hs2] at hrel
        obtain ⟨hee, hff⟩ := hrel
        have hee2 : ea = eb := hee
        subst hee2
        try simp only [hs1, hs2]
        cases ea with
        | none => exact ⟨by trivial, by trivial, by trivial, by trivial, hff⟩
        | some e => exact ⟨by trivial, by trivial, by trivial, by trivial, hff⟩
      | link =>
        try simp only [hfl]
        have hrel := extractLinkFS_rel hmk1 pres o mo1 mo2 hd target
        rcases hs1 : extractLinkFS pres o mo1 (mkdirAllFS f1 (goDir target) defaultDirPerm)
          hd target with ⟨fsa, ea⟩
        rcases hs2 : extractLinkFS pres o mo2 (mkdirAllFS f2 (goDir target) defaultDirPerm)
          hd target with ⟨fsb, eb⟩
        rw [hs1, hs2] at hrel
        obtain ⟨hee, hff⟩ := hrel
        have hee2 : ea = eb := hee
        subst hee2
        try simp only [hs1, hs2]
        cases ea with
        | none => exact ⟨by trivial, by trivial, by trivial, by trivial, hff⟩
        | some e => exact ⟨by trivial, by trivial, by trivial, by trivial, hff⟩
      | xGlobalHeader =>
        try simp only [hfl]
        exact ⟨by trivial, by trivial, by trivial, by trivial, hmk1⟩
      | other c =>
        try simp only [hfl]
        exact ⟨by trivial, by trivial, by trivial, by trivial, hmk1⟩

/-- The whole `Extract` loop is a bisimulation for `MetaEqFS` over the
choice of metadata oracle. -/
lemma extractLoop_rel (pres : Bool) (dst : Str) (o : FatalOracle) (mo1 mo2 : MetaOracle) :
    ∀ (evs : List (Option Header)) (t : Terminal) (w : Int) (pd : List (Str × Meta))
      (ds : List Str) (f1 f2 : FS), MetaEqFS f1 f2 →
      (extractLoop pres dst o mo1 ⟨w, f1, pd, ds⟩ evs t).1 =
        (extractLoop pres dst o mo2 ⟨w, f2, pd, ds⟩ evs t).1 ∧
      (extractLoop pres dst o mo1 ⟨w, f1, pd, ds⟩ evs t).2.1 =
        (extractLoop pres dst o mo2 ⟨w, f2, pd, ds⟩ evs t).2.1 ∧
      MetaEqFS (extractLoop pres dst o mo1 ⟨w, f1, pd, ds⟩ evs t).2.2.fs
        (extractLoop pres dst o mo2 ⟨w, f2, pd, ds⟩ evs t).2.2.fs := by
  intro evs
  induction evs with
  | nil =>
    intro t w pd ds f1 f2 hf
    cases t with
    | eof =>
      simp only [extractLoop]
      by_cases hp : pres = true
      · rw [if_pos hp, if_pos hp]
        simp only [flushDirs, flushDirsWith]
        refine ⟨by trivial, by trivial, ?_⟩
        exact metaEqFS_trans (foldl_applyDirMeta_metaEq ..)
          (metaEqFS_trans hf (metaEqFS_symm (foldl_applyDirMeta_metaEq ..)))
      · rw [if_neg hp, if_neg hp]
        exact ⟨by trivial, by trivial, hf⟩
    | readErr => exact ⟨by trivial, by trivial, hf⟩
  | cons ev rest ih =>
    intro t w pd ds f1 f2 hf
    cases ev with
    | none =>
      simp only [extractLoop]
      exact ih t w pd ds f1 f2 hf
    | some hd =>
      simp only [extractLoop]
      have hrel := extractEntry_rel pres dst o mo1 mo2 w pd ds hf hd
      rcases he1 : extractEntry pres dst o mo1 ⟨w, f1, pd, ds⟩ hd with ⟨st1, r1⟩
      rcases he2 : extractEntry pres dst o mo2 ⟨w, f2, pd, ds⟩ hd with ⟨st2, r2⟩
      rw [he1, he2] at hrel
      obtain ⟨hrr, hww, hpp, hdd, hffx⟩ := hrel
      have hrr2 : r1 = r2 := hrr
      subst hrr2
      try simp only [he1, he2]
      cases r1 with
      | some p =>
        obtain ⟨pw, pe⟩ := p
        exact ⟨by trivial, by trivial, hffx⟩
      | none =>
        obtain ⟨w1, fs1x, pd1, ds1⟩ := st1
        obtain ⟨w2, fs2x, pd2, ds2⟩ := st2
        have hww2 : w1 = w2 := hww
        have hpp2 : pd1 = pd2 := hpp
        have hdd2 : ds1 = ds2 := hdd
        have hffx2 : MetaEqFS fs1x fs2x := hffx
        subst hww2
        subst hpp2
        subst hdd2
        exact ih t w1 pd1 ds1 fs1x fs2x hffx2

/-- Claim C6 (confirmed): the result of `Extract` — its byte count, its
error, and the restored contents (paths and node cores) — is the same for
any two metadata oracles; in particular it is the same as when every
permission-mode, timestamp and ownership call succeeds.  Failures of those
calls are invisible in the call's result. -/
theorem C6_metadata_failures_harmless
    (a : Archive) (dst : Str) (o : FatalOracle) (mo1 mo2 : MetaOracle) (fs : FS)
    (evs : List (Option Header)) (t : Terminal) :
    (a.extract dst o mo1 fs evs t).1 = (a.extract dst o mo2 fs evs t).1 ∧
    (a.extract dst o mo1 fs evs t).2.1 = (a.extract dst o mo2 fs evs t).2.1 ∧
    contentView (a.extract dst o mo1 fs evs t).2.2.fs
      = contentView (a.extract dst o mo2 fs evs t).2.2.fs := by
  have h := extractLoop_rel a.preserveMetadata dst o mo1 mo2 evs t 0 [] [] fs fs
    (metaEqFS_refl fs)
  exact ⟨h.1, h.2.1, metaEqFS_contentView h.2.2⟩

end DMTar
